import Mathlib

/-!
# The chunk allocator of lint2 (`usr.bin/xlint/lint2/mem2.c`)

A shallow embedding of `initmem` and `xalloc`.

* `size_t` is the 64-bit unsigned type of the LP64 targets: every `size_t`
  computation of the source is reduced modulo `2 ^ 64` (`toSize`).
* The three file-scope statics `mblklen`, `nxtfree`, `mbuf` are the first three
  fields of `MemState`.  The fourth field, `heap`, is the memory handed out by
  `xmalloc` so far: one byte list per block, in order of acquisition.  A
  pointer to a block is the index of the block in `heap`; `NULL` is `none`.
* `xalloc` returns the new state together with the returned pointer, the pair
  `(mbuf, nxtfree)` that the source computes as `(char *)mbuf + nxtfree`.
-/

namespace Mem2

/-! ## Machine arithmetic -/

/-- Two to the width of `size_t`: the number of `size_t` values. -/
def SIZE_MOD : Nat := 18446744073709551616

/-- Reduction of a mathematical value to the `size_t` the machine holds. -/
def toSize (n : Nat) : Nat := n % SIZE_MOD

/-- The statement `sz = (sz + 7) & ~7L;` of `xalloc`.  The addition is done in
`size_t`; `~7L` is the `long` value `-8`, which the conversion to `size_t`
turns into `2 ^ 64 - 8`. -/
def alignSz (sz : Nat) : Nat := Nat.land (toSize (sz + 7)) (SIZE_MOD - 8)

/-! ## Memory -/

/-- The bytes of one block obtained from `xmalloc`. -/
abbrev Block := List Nat

/-- All blocks obtained from `xmalloc` so far, oldest first. -/
abbrev Heap := List Block

/-- The statics of `mem2.c` and the memory behind them. -/
structure MemState where
  /-- length of new allocated memory blocks -/
  mblklen : Nat
  /-- offset of next free byte in mbuf -/
  nxtfree : Nat
  /-- current buffer to serve memory requests from (`none` is `NULL`) -/
  mbuf : Option Nat
  /-- the blocks obtained from `xmalloc` so far -/
  heap : Heap
deriving DecidableEq, Repr

/-- A `char *` value: a block (or `NULL`) and a byte offset. -/
structure Ptr where
  base : Option Nat
  off : Nat
deriving DecidableEq, Repr

/-- The state at program start: statics are zero-initialised, nothing has been
obtained from `xmalloc`. -/
def mem0 : MemState := { mblklen := 0, nxtfree := 0, mbuf := none, heap := [] }

/-- The byte pattern that stands for the indeterminate contents of a block
fresh from `malloc`. -/
def JUNK : Nat := 0xa5

/-- Modelled from the spec: `xmalloc` is lint's checked `malloc` (its file is
not among the sources).  It yields a new block of exactly `n` bytes from the
underlying system allocator, or terminates the process; the embedding follows
the runs in which it returns.  The contents of the block are indeterminate
(`JUNK`), the block is distinct from every earlier one. -/
def xmalloc (h : Heap) (n : Nat) : Heap × Option Nat :=
  (h ++ [List.replicate n JUNK], some h.length)

/-- The effect of `memset(p, c, n)` on the bytes of the block `p` points to:
the first `n` bytes become `(unsigned char)c`. -/
def memsetBlock (b : Block) (c n : Nat) : Block :=
  List.replicate (min n b.length) (c % 256) ++ b.drop n

/-- The libc function `memset(p, c, n)` for `p` pointing to the start of a block. -/
def memset (h : Heap) (p : Option Nat) (c n : Nat) : Heap :=
  match p with
  | none => h
  | some k =>
    match h.get? k with
    | none => h
    | some b => h.set k (memsetBlock b c n)

/-! ## The two functions of `mem2.c` -/

/-- The function `initmem`.  `MBLKSIZ` is the macro of lint's headers (not among
the sources) and `pgsz` the value returned by `getpagesize()`; both are taken
as arguments.  The arithmetic is `size_t` arithmetic: `MBLKSIZ + pgsz - 1` is
`MBLKSIZ + pgsz + (2 ^ 64 - 1)` modulo `2 ^ 64`.  (For `pgsz = 0` the C division
is undefined; here it yields 0.) -/
def initmem (MBLKSIZ pgsz : Nat) (s : MemState) : MemState :=
  let mblklen := toSize (toSize (MBLKSIZ + pgsz + (SIZE_MOD - 1)) / pgsz * pgsz)
  { s with mblklen := mblklen, nxtfree := mblklen }

/-- The function `xalloc`: the state after the call and the returned pointer. -/
def xalloc (s : MemState) (sz : Nat) : MemState × Ptr :=
  /- Align to at least 8 bytes. -/
  let sz := alignSz sz
  let s1 : MemState :=
    if toSize (s.nxtfree + sz) > s.mblklen then
      let m := xmalloc s.heap s.mblklen
      { s with mbuf := m.2, heap := memset m.1 m.2 0 s.mblklen, nxtfree := 0 }
    else s
  let ptr : Ptr := { base := s1.mbuf, off := s1.nxtfree }
  ({ s1 with nxtfree := toSize (s1.nxtfree + sz) }, ptr)

/-! ## Callers: sequences of requests -/

/-- What one call of `xalloc` handed out: the pointer and the rounded size. -/
structure Region where
  ptr : Ptr
  len : Nat
deriving DecidableEq, Repr

/-- A caller that issues the requests of the list one after the other: the
regions handed out, in call order, and the final state. -/
def xallocSeq (s : MemState) : List Nat → List Region × MemState
  | [] => ([], s)
  | sz :: rest =>
    let r := xalloc s sz
    let t := xallocSeq r.1 rest
    ({ ptr := r.2, len := alignSz sz } :: t.1, t.2)

/-- The byte at offset `i` of block `k`, when there is one. -/
def byteAt (h : Heap) (k i : Nat) : Option Nat :=
  match h.get? k with
  | none => none
  | some b => b.get? i

/-- The half-open byte range of a region contains offset `x` of block `blk`. -/
def Region.covers (g : Region) (blk x : Nat) : Bool :=
  g.ptr.base == some blk && decide (g.ptr.off ≤ x) && decide (x < g.ptr.off + g.len)

/-- What a caller of the allocator does: it calls `xalloc`, or it stores one
byte at offset `off` of block `blk`. -/
inductive Op where
  | alloc (sz : Nat)
  | store (blk off val : Nat)
deriving DecidableEq, Repr

/-- A program under execution: the allocator with its memory, and the regions
`xalloc` has returned so far, most recent first. -/
structure Run where
  st : MemState
  given : List Region
deriving DecidableEq, Repr

/-- The store of one byte into a block. -/
def storeByte (h : Heap) (blk off val : Nat) : Heap :=
  match h.get? blk with
  | none => h
  | some b => h.set blk (b.set off (val % 256))

/-- One action of the caller. -/
def Run.step (c : Run) : Op → Run
  | Op.alloc sz =>
    let r := xalloc c.st sz
    { st := r.1, given := { ptr := r.2, len := alignSz sz } :: c.given }
  | Op.store blk off val =>
    { c with st := { c.st with heap := storeByte c.st.heap blk off val } }

/-- The actions of the list, one after the other. -/
def Run.exec (c : Run) : List Op → Run
  | [] => c
  | op :: rest => Run.exec (c.step op) rest

/-- The discipline of a caller: a request is no larger than a block once
rounded, and a store goes to a byte of a region returned earlier. -/
def Run.allowed (c : Run) : Op → Bool
  | Op.alloc sz => decide (alignSz sz ≤ c.st.mblklen)
  | Op.store blk off _ => c.given.any (fun g => g.covers blk off)

/-- Every action of the list keeps to the discipline at the time it is done. -/
def Run.allowedAll (c : Run) : List Op → Bool
  | [] => true
  | op :: rest => c.allowed op && Run.allowedAll (c.step op) rest

/-- The sum of the rounded sizes of a list of regions. -/
def totalLen (gs : List Region) : Nat := (gs.map (fun g => g.len)).sum

/-- A configuration with blocks of `2 ^ 64 - 4096` bytes on a machine with pages
of 4096 bytes: the state right after `initmem`. -/
def hugeInit : MemState := initmem 18446744073709547520 4096 mem0

/-- The configuration of the scenario: pages of 4096 bytes, `MBLKSIZ` 1. -/
def pageInit : MemState := initmem 1 4096 mem0

/-- The invariant behind zero-fill, for blocks of `S` bytes: `mblklen` is `S`,
`nxtfree` is within the block, every non-empty region handed out lies in a
block that exists and, when that is the current block, below `nxtfree`, and
the bytes of the current block from `nxtfree` on are all zero. -/
def ZeroInv (S : Nat) (c : Run) : Prop :=
  c.st.mblklen = S ∧ c.st.nxtfree ≤ S ∧
  (∀ g ∈ c.given, 0 < g.len →
    ∃ k, g.ptr.base = some k ∧ k < c.st.heap.length ∧
      (c.st.mbuf = some k → g.ptr.off + g.len ≤ c.st.nxtfree)) ∧
  (c.st.nxtfree < S →
    ∃ k, c.st.mbuf = some k ∧ ∀ i, c.st.nxtfree ≤ i → i < S → byteAt c.st.heap k i = some 0)

/-- The size that no object reaches on an LP64 machine (`PTRDIFF_MAX + 1`). -/
def BLOCK_MAX : Nat := 9223372036854775808

/-- Modelled from the spec: the underlying system allocator cannot supply a
block of `BLOCK_MAX` bytes or more, and `xmalloc` (not among the sources) then
terminates the process instead of returning.  A memory whose blocks were all
returned by `xmalloc` in a run of the program has no such block. -/
def suppliable (h : Heap) : Prop := ∀ b ∈ h, b.length < BLOCK_MAX

end Mem2

/-!
# The OpenFirmware bus (`sys/dev/ofw/ofbus.c`)

A shallow embedding of `ofbus_skip_node_in_root` and of the part of
`ofbus_attach` that attaches the children of the bus node.

* The firmware is read through `OF_child`/`OF_peer`, `OF_getprop`,
  `OF_finddevice` and `of_packagename`, none of which is in `ofbus.c`; what they
  return for the bus node and for its children is the input of the embedding
  (`OfBus`, `OfNode`).  The children are the list that
  `for (child = OF_child(..); child != 0; child = OF_peer(child))` walks.
* A C string is the list of its characters before the terminating NUL.
* The result of `ofbus_attach` is the list of the arguments it passes to
  `config_found`, in call order.  The `printf` of the banner is left out.
-/

namespace Ofbus

/-- A C string: the characters before the terminating NUL. -/
abbrev CStr := List Char

/-- A child of the bus node, as the firmware presents it.  A property that
`OF_getprop` reads with a result `> 0` is `some` of the string left in the
buffer; `none` is a result `<= 0`. -/
structure OfNode where
  /-- the package handle, the value of `child` -/
  phandle : Nat
  /-- `OF_getprop(child, "device_type", type, sizeof(type))` -/
  device_type : Option CStr
  /-- `OF_getprop(phandle, "name", name, namesize)` -/
  name : Option CStr
  /-- the string `of_packagename(child, name, sizeof name)` leaves in `name` -/
  pkgname : CStr
deriving DecidableEq, Repr

/-- The bus node `oba->oba_phandle`. -/
structure OfBus where
  /-- the package handle of the bus node -/
  phandle : Nat
  /-- `OF_getprop(oba->oba_phandle, "name", name, sizeof name)` -/
  name : Option CStr
  /-- the nodes met by the walk over `OF_child` and `OF_peer` -/
  children : List OfNode
deriving DecidableEq, Repr

/-- The fields of `struct ofbus_attach_args` as passed to one call of
`config_found`. -/
structure ofbus_attach_args where
  oba_busname : CStr
  oba_ofname : CStr
  oba_unit : Nat
  oba_phandle : Nat
deriving DecidableEq, Repr

/-- The names of `skip_names` that are there for every machine. -/
def skip_names_common : List CStr :=
  ["aliases".toList, "options".toList, "openprom".toList, "chosen".toList, "packages".toList]

/-- The names of `_OFBUS_ROOT_MACHDEP_SKIPNAMES`, defined when `__arm32__` is. -/
def OFBUS_ROOT_MACHDEP_SKIPNAMES : List CStr :=
  ["udp".toList, "cpus".toList, "mmu".toList, "memory".toList]

/-- The array `skip_names` of `ofbus_skip_node_in_root`; `arm32` tells whether
`__arm32__` is defined. -/
def skip_names (arm32 : Bool) : List CStr :=
  skip_names_common ++ (if arm32 then OFBUS_ROOT_MACHDEP_SKIPNAMES else [])

/-- The function `ofbus_skip_node_in_root`: false when the name cannot be read,
otherwise whether `strcmp` finds the name in `skip_names`. -/
def ofbus_skip_node_in_root (arm32 : Bool) (node : OfNode) : Bool :=
  match node.name with
  | none => false
  | some name => (skip_names arm32).any (fun skip => name == skip)

/-- The value of `units` computed by `ofbus_attach` from the name of the bus. -/
def busUnits (bus : OfBus) : Nat :=
  match bus.name with
  | none => 1
  | some name =>
    if name = "scsi".toList then 7
    else if name = "ide".toList then 2
    else 1

/-- The string `snprintf(dst, size, "%s@%d", name, unit)` leaves in `dst`: the
formatted text cut to `size - 1` characters. -/
def snprintf_at (size : Nat) (name : CStr) (unit : Nat) : CStr :=
  (name ++ ['@'] ++ Nat.toDigits 10 unit).take (size - 1)

/-- The string `strlcpy(dst, name, size)` leaves in `dst`. -/
def strlcpy (size : Nat) (name : CStr) : CStr :=
  name.take (size - 1)

/-- The value given to `oba2.oba_ofname` in the loop over the units; `size` is
`sizeof(oba2.oba_ofname)`, fixed by a header that is not among the sources. -/
def ofname (size units : Nat) (name : CStr) (unit : Nat) : CStr :=
  if units > 1 then snprintf_at size name unit else strlcpy size name

/-- The loop `for (oba2.oba_unit = 0; oba2.oba_unit < units; oba2.oba_unit++)`
for one child: the calls of `config_found`, for the units 0, 1, ... in turn. -/
def attachUnits (size units : Nat) (child : OfNode) : List ofbus_attach_args :=
  (List.range units).map (fun unit =>
    { oba_busname := "ofw".toList, oba_ofname := ofname size units child.pkgname unit,
      oba_unit := unit, oba_phandle := child.phandle })

/-- The first loop over the children: "attach displays first". -/
def attachDisplays (size units : Nat) : List OfNode → List ofbus_attach_args
  | [] => []
  | child :: peers =>
    match child.device_type with
    | none => attachDisplays size units peers
    | some type =>
      if type ≠ "display".toList then attachDisplays size units peers
      else attachUnits size units child ++ attachDisplays size units peers

/-- The second loop over the children: "now the rest". -/
def attachRest (arm32 : Bool) (size units : Nat) (rootbus : Bool) :
    List OfNode → List ofbus_attach_args
  | [] => []
  | child :: peers =>
    if (match child.device_type with
        | none => false
        | some type => type == "display".toList) then
      attachRest arm32 size units rootbus peers
    else if rootbus && ofbus_skip_node_in_root arm32 child then
      attachRest arm32 size units rootbus peers
    else attachUnits size units child ++ attachRest arm32 size units rootbus peers

/-- The function `ofbus_attach`: the calls of `config_found` it makes, in
order.  `root` is `OF_finddevice("/")`, `size` is `sizeof(oba2.oba_ofname)`. -/
def ofbus_attach (arm32 : Bool) (size root : Nat) (bus : OfBus) : List ofbus_attach_args :=
  let rootbus := bus.phandle == root
  let units := busUnits bus
  attachDisplays size units bus.children ++ attachRest arm32 size units rootbus bus.children

/-- The predicate of the specification: the `device_type` of the child is
present and equal to "display". -/
def isDisplay (child : OfNode) : Bool :=
  child.device_type == some "display".toList

/-- A bus with two disks, a display and the node `cpus`. -/
def sampleBus (phandle : Nat) (name : Option CStr) : OfBus :=
  { phandle := phandle, name := name,
    children :=
      [{ phandle := 11, device_type := some "block".toList, name := some "disk".toList,
         pkgname := "disk@0".toList },
       { phandle := 12, device_type := some "display".toList, name := some "chosen".toList,
         pkgname := "vga".toList },
       { phandle := 13, device_type := none, name := some "cpus".toList,
         pkgname := "cpus".toList },
       { phandle := 14, device_type := none, name := some "options".toList,
         pkgname := "options".toList }] }

end Ofbus

namespace Mem2

/-! ## Arithmetic facts -/

theorem SIZE_MOD_eq : SIZE_MOD = 2 ^ 64 := by decide

theorem toSize_lt (n : Nat) : toSize n < SIZE_MOD :=
  Nat.mod_lt _ (by decide)

theorem toSize_of_lt {n : Nat} (h : n < SIZE_MOD) : toSize n = n :=
  Nat.mod_eq_of_lt h

/-- Masking a 64-bit value with `2 ^ 64 - 8` clears its three low bits. -/
theorem land_mask (x : Nat) (h : x < 2 ^ 64) : Nat.land x (2 ^ 64 - 8) = x / 8 * 8 := by
  show x &&& (2 ^ 64 - 8) = x / 8 * 8
  apply Nat.eq_of_testBit_eq
  intro i
  have h8 : x / 8 * 8 = (x >>> 3) <<< 3 := by
    simp [Nat.shiftRight_eq_div_pow, Nat.shiftLeft_eq]
  rw [h8, Nat.testBit_land, Nat.testBit_shiftLeft, Nat.testBit_shiftRight]
  have hm : (2 ^ 64 - 8 : Nat) = 2 ^ 64 - (7 + 1) := rfl
  rw [hm, Nat.testBit_two_pow_sub_succ (by norm_num)]
  have h7 : (7 : Nat) = 2 ^ 3 - 1 := rfl
  rw [h7, Nat.testBit_two_pow_sub_one]
  by_cases h3 : i < 3
  · simp [h3]
  · have h3i : 3 + (i - 3) = i := by omega
    have h3le : 3 ≤ i := by omega
    simp only [h3, h3i, h3le, decide_True, decide_False, Bool.not_false, Bool.and_true,
      Bool.true_and]
    by_cases h64 : i < 64
    · simp [h64]
    · have hp : 2 ^ 64 ≤ 2 ^ i := Nat.pow_le_pow_right (by norm_num) (by omega)
      have hb := Nat.testBit_lt_two_pow (lt_of_lt_of_le h hp)
      simp [hb, h64]

/-- The rounding of `xalloc` in arithmetic terms. -/
theorem alignSz_eq (sz : Nat) : alignSz sz = (sz + 7) % SIZE_MOD / 8 * 8 := by
  have h := land_mask ((sz + 7) % SIZE_MOD) (by rw [← SIZE_MOD_eq]; exact toSize_lt _)
  rw [← SIZE_MOD_eq] at h
  exact h

theorem alignSz_dvd (sz : Nat) : 8 ∣ alignSz sz := by
  rw [alignSz_eq]; exact Dvd.intro_left _ rfl

theorem alignSz_lt (sz : Nat) : alignSz sz < SIZE_MOD := by
  rw [alignSz_eq]
  have := Nat.mod_lt (sz + 7) (show 0 < SIZE_MOD by decide)
  have := Nat.div_mul_le_self ((sz + 7) % SIZE_MOD) 8
  omega

/-! ## The two paths of `xalloc` -/

theorem memset_fresh (h : Heap) (n : Nat) :
    memset (xmalloc h n).1 (xmalloc h n).2 0 n = h ++ [List.replicate n 0] := by
  have hg : (h ++ [List.replicate n JUNK]).get? h.length = some (List.replicate n JUNK) := by
    simp
  simp only [xmalloc, memset, hg, memsetBlock]
  simp

/-- The path of `xalloc` through the body of the `if`: a block is obtained and
zeroed, the pointer is its start. -/
theorem xalloc_fresh (s : MemState) (sz : Nat)
    (h : s.mblklen < toSize (s.nxtfree + alignSz sz)) :
    xalloc s sz =
      ({ mblklen := s.mblklen, nxtfree := alignSz sz, mbuf := some s.heap.length,
         heap := s.heap ++ [List.replicate s.mblklen 0] },
       { base := some s.heap.length, off := 0 }) := by
  have hm := memset_fresh s.heap s.mblklen
  simp only [xalloc, gt_iff_lt, h, if_true, hm]
  simp [xmalloc, toSize_of_lt (alignSz_lt sz)]

/-- The path of `xalloc` around the body of the `if`: nothing is obtained, the
pointer is `mbuf + nxtfree`. -/
theorem xalloc_fit (s : MemState) (sz : Nat)
    (h : toSize (s.nxtfree + alignSz sz) ≤ s.mblklen) :
    xalloc s sz =
      ({ s with nxtfree := toSize (s.nxtfree + alignSz sz) },
       { base := s.mbuf, off := s.nxtfree }) := by
  have h2 : ¬ s.mblklen < toSize (s.nxtfree + alignSz sz) := Nat.not_lt.mpr h
  simp only [xalloc, gt_iff_lt, h2, if_false]

theorem xalloc_mblklen (s : MemState) (sz : Nat) : (xalloc s sz).1.mblklen = s.mblklen := by
  by_cases h : s.mblklen < toSize (s.nxtfree + alignSz sz)
  · rw [xalloc_fresh s sz h]
  · rw [xalloc_fit s sz (Nat.not_lt.mp h)]

theorem initmem_mblklen (m p : Nat) (s : MemState) (hp : 0 < p) (hm : m + p - 1 < SIZE_MOD) :
    (initmem m p s).mblklen = (m + p - 1) / p * p := by
  have h1 : toSize (m + p + (SIZE_MOD - 1)) = m + p - 1 := by
    unfold toSize
    have hS : 0 < SIZE_MOD := by decide
    have : m + p + (SIZE_MOD - 1) = (m + p - 1) + SIZE_MOD := by omega
    rw [this, Nat.add_mod_right, Nat.mod_eq_of_lt hm]
  have h2 : (m + p - 1) / p * p ≤ m + p - 1 := Nat.div_mul_le_self _ _
  simp only [initmem, h1]
  exact toSize_of_lt (lt_of_le_of_lt h2 hm)

theorem initmem_nxtfree (m p : Nat) (s : MemState) :
    (initmem m p s).nxtfree = (initmem m p s).mblklen := rfl

/-! ## Allocation step -/

/-- C1, as amended: in a state with `nxtfree ≤ mblklen`, for a request whose
rounded size `r` is at most `mblklen` and for which `nxtfree + r` stays below
`2 ^ 64`: when `nxtfree + r > mblklen`, `xalloc` obtains exactly one new block of
`mblklen` bytes (zeroed), returns offset 0 of that block and leaves
`nxtfree = r`; otherwise it obtains nothing, returns the old `nxtfree` as an
offset into the current block and leaves `nxtfree` advanced by `r`. -/
theorem xalloc_step (s : MemState) (sz : Nat)
    (_hc : s.nxtfree ≤ s.mblklen) (_hr : alignSz sz ≤ s.mblklen)
    (hw : s.nxtfree + alignSz sz < SIZE_MOD) :
    (s.mblklen < s.nxtfree + alignSz sz →
      xalloc s sz =
        ({ mblklen := s.mblklen, nxtfree := alignSz sz, mbuf := some s.heap.length,
           heap := s.heap ++ [List.replicate s.mblklen 0] },
         { base := some s.heap.length, off := 0 })) ∧
    (s.nxtfree + alignSz sz ≤ s.mblklen →
      xalloc s sz =
        ({ s with nxtfree := s.nxtfree + alignSz sz },
         { base := s.mbuf, off := s.nxtfree })) := by
  have ht : toSize (s.nxtfree + alignSz sz) = s.nxtfree + alignSz sz := toSize_of_lt hw
  constructor
  · intro h
    exact xalloc_fresh s sz (by rw [ht]; exact h)
  · intro h
    have := xalloc_fit s sz (by rw [ht]; exact h)
    rw [ht] at this
    exact this

/-- Witness of `xalloc_step`: the first request of 10 bytes after `initmem`
with pages of 4096 bytes. -/
theorem xalloc_step_witness :
    (pageInit.nxtfree ≤ pageInit.mblklen ∧ alignSz 10 ≤ pageInit.mblklen ∧
      pageInit.nxtfree + alignSz 10 < SIZE_MOD ∧ pageInit.mblklen < pageInit.nxtfree + alignSz 10) ∧
    xalloc pageInit 10 =
      ({ mblklen := pageInit.mblklen, nxtfree := alignSz 10, mbuf := some pageInit.heap.length,
         heap := pageInit.heap ++ [List.replicate pageInit.mblklen 0] },
       { base := some pageInit.heap.length, off := 0 }) :=
  ⟨by decide, (xalloc_step pageInit 10 (by decide) (by decide) (by decide)).1 (by decide)⟩

/-- C1, counterexample: with blocks of `2 ^ 64 - 4096` bytes, right after
`initmem`, a request of 4096 bytes has `nxtfree ≤ mblklen`, rounded size
`4096 ≤ mblklen` and `nxtfree + 4096 > mblklen`, yet `xalloc` obtains no block,
returns offset `mblklen` of the null `mbuf` and leaves `nxtfree = 0`. -/
theorem xalloc_step_wraps :
    hugeInit.nxtfree ≤ hugeInit.mblklen ∧
    alignSz 4096 = 4096 ∧ alignSz 4096 ≤ hugeInit.mblklen ∧
    hugeInit.mblklen < hugeInit.nxtfree + alignSz 4096 ∧
    (xalloc hugeInit 4096).1.heap = hugeInit.heap ∧
    (xalloc hugeInit 4096).2 = { base := none, off := 18446744073709547520 } ∧
    (xalloc hugeInit 4096).1.nxtfree = 0 := by
  decide

/-! ## Alignment -/

theorem dvd_toSize {n : Nat} (h : 8 ∣ n) : 8 ∣ toSize n :=
  (Nat.dvd_mod_iff (by decide : 8 ∣ SIZE_MOD)).mpr h

theorem xalloc_align (s : MemState) (sz : Nat) (h : 8 ∣ s.nxtfree) :
    8 ∣ (xalloc s sz).1.nxtfree ∧ 8 ∣ (xalloc s sz).2.off := by
  by_cases hf : s.mblklen < toSize (s.nxtfree + alignSz sz)
  · rw [xalloc_fresh s sz hf]
    exact ⟨alignSz_dvd sz, Nat.dvd_zero 8⟩
  · rw [xalloc_fit s sz (Nat.not_lt.mp hf)]
    exact ⟨dvd_toSize (Nat.dvd_add h (alignSz_dvd sz)), h⟩

theorem xallocSeq_align (reqs : List Nat) :
    ∀ s : MemState, 8 ∣ s.nxtfree →
      (∀ g ∈ (xallocSeq s reqs).1, 8 ∣ g.ptr.off) ∧ 8 ∣ (xallocSeq s reqs).2.nxtfree := by
  induction reqs with
  | nil => intro s h; simp [xallocSeq, h]
  | cons sz rest ih =>
    intro s h
    have hx := xalloc_align s sz h
    have hr := ih (xalloc s sz).1 hx.1
    refine ⟨?_, hr.2⟩
    intro g hg
    simp only [xallocSeq, List.mem_cons] at hg
    rcases hg with rfl | hg
    · exact hx.2
    · exact hr.1 g hg

/-- C2: after `initmem` with a page size that is a positive multiple of 8, for
every list of requests (any values at all, including 0 and values for which
the rounding or the addition to `nxtfree` wraps modulo `2 ^ 64`), the offset
returned by every call is a multiple of 8; `8 ∣ nxtfree` holds after `initmem`
and is kept by every call of `xalloc`. -/
theorem alignment (m p : Nat) (s0 : MemState) (reqs : List Nat) (_hp : 0 < p) (h8 : 8 ∣ p) :
    8 ∣ (initmem m p s0).nxtfree ∧
    (∀ (s : MemState) (sz : Nat), 8 ∣ s.nxtfree →
      8 ∣ (xalloc s sz).1.nxtfree ∧ 8 ∣ (xalloc s sz).2.off) ∧
    (∀ g ∈ (xallocSeq (initmem m p s0) reqs).1, 8 ∣ g.ptr.off) ∧
    8 ∣ (xallocSeq (initmem m p s0) reqs).2.nxtfree := by
  have hi : 8 ∣ (initmem m p s0).nxtfree := by
    show 8 ∣ toSize (toSize (m + p + (SIZE_MOD - 1)) / p * p)
    exact dvd_toSize (Dvd.dvd.mul_left h8 _)
  exact ⟨hi, xalloc_align, xallocSeq_align reqs _ hi⟩

/-- Witness of `alignment`: pages of 4096 bytes and requests of 0, 13,
`2 ^ 64 - 1` and `2 ^ 64 - 8` bytes. -/
theorem alignment_witness :
    (0 < 4096 ∧ 8 ∣ 4096) ∧
    (∀ g ∈ (xallocSeq (initmem 1 4096 mem0)
        [0, 13, 18446744073709551615, 18446744073709551608]).1, 8 ∣ g.ptr.off) :=
  ⟨by decide,
   (alignment 1 4096 mem0 [0, 13, 18446744073709551615, 18446744073709551608]
      (by decide) (by decide)).2.2.1⟩

/-! ## Block length computed by `initmem` -/

/-- C5: for every page size `p > 0` and every `MBLKSIZ = m` with `m + p - 1`
representable, `initmem` sets `mblklen = ((m + p - 1) / p) * p`, and this is the
least multiple of `p` that is at least `m`: it is a multiple of `p`, it is at
least `m`, no smaller multiple of `p` is at least `m`, and it is below `m + p`. -/
theorem initmem_slab_size (m p : Nat) (s : MemState) (hp : 0 < p) (hm : m + p - 1 < SIZE_MOD) :
    (initmem m p s).mblklen = (m + p - 1) / p * p ∧
    p ∣ (initmem m p s).mblklen ∧
    m ≤ (initmem m p s).mblklen ∧
    (∀ k, p ∣ k → m ≤ k → (initmem m p s).mblklen ≤ k) ∧
    (initmem m p s).mblklen < m + p := by
  rw [initmem_mblklen m p s hp hm]
  have hle : (m + p - 1) / p * p ≤ m + p - 1 := Nat.div_mul_le_self _ _
  have hlt : m + p - 1 < ((m + p - 1) / p + 1) * p := by
    have := Nat.lt_succ_self ((m + p - 1) / p)
    exact (Nat.div_lt_iff_lt_mul hp).mp this
  have hge : m ≤ (m + p - 1) / p * p := by
    rw [Nat.add_mul, Nat.one_mul] at hlt
    omega
  refine ⟨rfl, Dvd.intro_left _ rfl, hge, ?_, by omega⟩
  rintro k ⟨q, rfl⟩ hk
  rw [Nat.mul_comm p q]
  apply Nat.mul_le_mul_right
  apply (Nat.div_le_iff_le_mul_add_pred hp).mpr
  have : m ≤ p * q := hk
  rw [Nat.mul_comm p q] at this
  rw [Nat.mul_comm p q]
  omega

/-- Witness of `initmem_slab_size`: `MBLKSIZ` 5000 and pages of 4096 bytes give
blocks of 8192 bytes. -/
theorem initmem_slab_size_witness :
    (0 < 4096 ∧ 5000 + 4096 - 1 < SIZE_MOD) ∧ (initmem 5000 4096 mem0).mblklen = 8192 :=
  ⟨by decide, (initmem_slab_size 5000 4096 mem0 (by decide) (by decide)).1⟩

/-! ## The scenario of the specification -/

/-- C9: with pages of 4096 bytes and `MBLKSIZ` 1, `initmem` yields
`mblklen = 4096`; five calls `xalloc(10)` return offsets 0, 16, 32, 48, 64 of the
first block (one block obtained), and a sixth call `xalloc(4090)`, rounded to
4096, obtains a second block and returns its offset 0, leaving `nxtfree = 4096`. -/
theorem scenario :
    pageInit.mblklen = 4096 ∧ pageInit.heap = [] ∧
    (xallocSeq pageInit [10, 10, 10, 10, 10]).1 =
      [{ ptr := { base := some 0, off := 0 }, len := 16 },
       { ptr := { base := some 0, off := 16 }, len := 16 },
       { ptr := { base := some 0, off := 32 }, len := 16 },
       { ptr := { base := some 0, off := 48 }, len := 16 },
       { ptr := { base := some 0, off := 64 }, len := 16 }] ∧
    (xallocSeq pageInit [10, 10, 10, 10, 10]).2.heap.length = 1 ∧
    xalloc (xallocSeq pageInit [10, 10, 10, 10, 10]).2 4090 =
      ({ mblklen := 4096, nxtfree := 4096, mbuf := some 1,
         heap := (xallocSeq pageInit [10, 10, 10, 10, 10]).2.heap ++ [List.replicate 4096 0] },
       { base := some 1, off := 0 }) ∧
    alignSz 4090 = 4096 := by
  refine ⟨by decide, by decide, by decide, by decide, ?_, by decide⟩
  have h := xalloc_fresh (xallocSeq pageInit [10, 10, 10, 10, 10]).2 4090 (by decide)
  rw [h]
  have h1 : (xallocSeq pageInit [10, 10, 10, 10, 10]).2.mblklen = 4096 := by decide
  have h2 : (xallocSeq pageInit [10, 10, 10, 10, 10]).2.heap.length = 1 := by decide
  have h3 : alignSz 4090 = 4096 := by decide
  rw [h1, h2, h3]

/-! ## Bounds of `nxtfree` and of the regions -/

/-- One call in a state with `nxtfree ≤ mblklen < 2 ^ 63` for a request that
fits a block: the returned region ends where the new `nxtfree` stands, which
is within the block. -/
theorem xalloc_bound (s : MemState) (sz : Nat) (h2 : 2 * s.mblklen < SIZE_MOD)
    (hc : s.nxtfree ≤ s.mblklen) (hr : alignSz sz ≤ s.mblklen) :
    (xalloc s sz).1.nxtfree = (xalloc s sz).2.off + alignSz sz ∧
    (xalloc s sz).1.nxtfree ≤ s.mblklen := by
  have ht : toSize (s.nxtfree + alignSz sz) = s.nxtfree + alignSz sz :=
    toSize_of_lt (by omega)
  by_cases hf : s.mblklen < toSize (s.nxtfree + alignSz sz)
  · rw [xalloc_fresh s sz hf]
    exact ⟨(Nat.zero_add _).symm, hr⟩
  · rw [xalloc_fit s sz (Nat.not_lt.mp hf)]
    rw [ht] at hf
    show toSize (s.nxtfree + alignSz sz) = s.nxtfree + alignSz sz ∧
      toSize (s.nxtfree + alignSz sz) ≤ s.mblklen
    rw [ht]
    exact ⟨rfl, Nat.not_lt.mp hf⟩

theorem xallocSeq_bound (reqs : List Nat) :
    ∀ s : MemState, 2 * s.mblklen < SIZE_MOD → s.nxtfree ≤ s.mblklen →
      (∀ sz ∈ reqs, alignSz sz ≤ s.mblklen) →
      (xallocSeq s reqs).2.nxtfree ≤ s.mblklen ∧
      ∀ g ∈ (xallocSeq s reqs).1, g.ptr.off + g.len ≤ s.mblklen := by
  induction reqs with
  | nil => intro s _ hc _; simp [xallocSeq, hc]
  | cons sz rest ih =>
    intro s h2 hc hr
    have hb := xalloc_bound s sz h2 hc (hr sz (List.mem_cons_self _ _))
    have hm := xalloc_mblklen s sz
    have hi := ih (xalloc s sz).1 (by rw [hm]; exact h2) (by rw [hm]; exact hb.2)
      (by rw [hm]; intro z hz; exact hr z (List.mem_cons_of_mem _ hz))
    rw [hm] at hi
    refine ⟨hi.1, ?_⟩
    intro g hg
    simp only [xallocSeq, List.mem_cons] at hg
    rcases hg with rfl | hg
    · show (xalloc s sz).2.off + alignSz sz ≤ s.mblklen
      rw [← hb.1]; exact hb.2
    · exact hi.2 g hg

/-- After a call for a request that fits a block, `nxtfree` is within the block,
whatever it was before. -/
theorem xalloc_nxtfree_le (s : MemState) (sz : Nat) (hr : alignSz sz ≤ s.mblklen) :
    (xalloc s sz).1.nxtfree ≤ s.mblklen := by
  by_cases hf : s.mblklen < toSize (s.nxtfree + alignSz sz)
  · rw [xalloc_fresh s sz hf]; exact hr
  · rw [xalloc_fit s sz (Nat.not_lt.mp hf)]; exact Nat.not_lt.mp hf

theorem xallocSeq_nxtfree_le (reqs : List Nat) :
    ∀ s : MemState, s.nxtfree ≤ s.mblklen → (∀ sz ∈ reqs, alignSz sz ≤ s.mblklen) →
      (xallocSeq s reqs).2.nxtfree ≤ s.mblklen := by
  induction reqs with
  | nil => intro s hc _; exact hc
  | cons sz rest ih =>
    intro s _ hr
    have hm := xalloc_mblklen s sz
    have hi := ih (xalloc s sz).1
      (by rw [hm]; exact xalloc_nxtfree_le s sz (hr sz (List.mem_cons_self _ _)))
      (by rw [hm]; intro z hz; exact hr z (List.mem_cons_of_mem _ hz))
    rw [hm] at hi
    exact hi

/-- C3, as amended: after `initmem`, for every list of requests whose rounded
sizes are at most `mblklen`, the state after every call (after the first `k`
calls, for every `k`) has `nxtfree ≤ mblklen`; and when `mblklen < 2 ^ 63`, every
returned region has offset + rounded size at most `mblklen`. -/
theorem cursor_bound (m p : Nat) (s0 : MemState) (reqs : List Nat)
    (hr : ∀ sz ∈ reqs, alignSz sz ≤ (initmem m p s0).mblklen) :
    (∀ k, (xallocSeq (initmem m p s0) (reqs.take k)).2.nxtfree ≤ (initmem m p s0).mblklen) ∧
    (2 * (initmem m p s0).mblklen < SIZE_MOD →
      ∀ g ∈ (xallocSeq (initmem m p s0) reqs).1,
        g.ptr.off + g.len ≤ (initmem m p s0).mblklen) := by
  constructor
  · intro k
    exact xallocSeq_nxtfree_le (reqs.take k) (initmem m p s0) (Nat.le_refl _)
      (fun z hz => hr z (List.mem_of_mem_take hz))
  · intro h2
    exact (xallocSeq_bound reqs (initmem m p s0) h2 (Nat.le_refl _) hr).2

/-- Witness of `cursor_bound`: blocks of 4096 bytes, requests of 10, 4090, 0 and
4096 bytes. -/
theorem cursor_bound_witness :
    (∀ sz ∈ [10, 4090, 0, 4096], alignSz sz ≤ (initmem 1 4096 mem0).mblklen) ∧
    (∀ g ∈ (xallocSeq (initmem 1 4096 mem0) [10, 4090, 0, 4096]).1,
      g.ptr.off + g.len ≤ (initmem 1 4096 mem0).mblklen) :=
  ⟨by decide, (cursor_bound 1 4096 mem0 [10, 4090, 0, 4096] (by decide)).2 (by decide)⟩

/-- C3, counterexample: with blocks of `2 ^ 64 - 4096` bytes, the first request
after `initmem`, of 4096 bytes (rounded size `4096 ≤ mblklen`), is answered with
the region at offset `mblklen`, which ends 4096 bytes beyond `mblklen`. -/
theorem cursor_bound_wraps :
    hugeInit = initmem 18446744073709547520 4096 mem0 ∧
    hugeInit.mblklen = 18446744073709547520 ∧
    (∀ sz ∈ [4096], alignSz sz ≤ hugeInit.mblklen) ∧
    (xallocSeq hugeInit [4096]).1 =
      [{ ptr := { base := none, off := 18446744073709547520 }, len := 4096 }] ∧
    ¬ (∀ g ∈ (xallocSeq hugeInit [4096]).1, g.ptr.off + g.len ≤ hugeInit.mblklen) := by
  decide

/-! ## Regions of one block do not overlap -/

/-- The relation between an earlier region `a` and a later region `b`: when
they lie in the same block, one of them is empty or `a` ends before `b` starts. -/
theorem xallocSeq_sep (reqs : List Nat) :
    ∀ s : MemState, 2 * s.mblklen < SIZE_MOD → s.nxtfree ≤ s.mblklen →
      (s.nxtfree < s.mblklen → ∃ k, k < s.heap.length ∧ s.mbuf = some k) →
      (∀ sz ∈ reqs, alignSz sz ≤ s.mblklen) →
      (∀ g ∈ (xallocSeq s reqs).1,
        g.len = 0 ∨ (g.ptr.base = s.mbuf ∧ s.nxtfree ≤ g.ptr.off) ∨
          ∃ j, s.heap.length ≤ j ∧ g.ptr.base = some j) ∧
      (xallocSeq s reqs).1.Pairwise
        (fun a b => a.ptr.base = b.ptr.base →
          a.len = 0 ∨ b.len = 0 ∨ a.ptr.off + a.len ≤ b.ptr.off) := by
  induction reqs with
  | nil => intro s _ _ _ _; simp [xallocSeq]
  | cons sz rest ih =>
    intro s h2 hc hw hr
    have hrz := hr sz (List.mem_cons_self _ _)
    have ht : toSize (s.nxtfree + alignSz sz) = s.nxtfree + alignSz sz :=
      toSize_of_lt (by omega)
    by_cases hf : s.mblklen < toSize (s.nxtfree + alignSz sz)
    · -- a block is obtained
      have hx := xalloc_fresh s sz hf
      have hi := ih (xalloc s sz).1 (by rw [hx]; exact h2) (by rw [hx]; exact hrz)
        (by rw [hx]; intro _; exact ⟨s.heap.length, by simp, rfl⟩)
        (by rw [hx]; intro z hz; exact hr z (List.mem_cons_of_mem _ hz))
      simp only [xallocSeq]
      rw [hx] at hi ⊢
      simp only [List.length_append, List.length_singleton] at hi
      refine ⟨?_, ?_⟩
      · intro g hg
        rcases List.mem_cons.mp hg with rfl | hg
        · exact Or.inr (Or.inr ⟨s.heap.length, Nat.le_refl _, rfl⟩)
        · rcases hi.1 g hg with h0 | ⟨hb, _⟩ | ⟨j, hj, hb⟩
          · exact Or.inl h0
          · exact Or.inr (Or.inr ⟨s.heap.length, Nat.le_refl _, hb⟩)
          · exact Or.inr (Or.inr ⟨j, by omega, hb⟩)
      · refine List.pairwise_cons.mpr ⟨?_, hi.2⟩
        intro b hb hab
        rcases hi.1 b hb with h0 | ⟨_, ho⟩ | ⟨j, hj, hbj⟩
        · exact Or.inr (Or.inl h0)
        · exact Or.inr (Or.inr (by simpa using ho))
        · exfalso
          rw [hbj] at hab
          have : s.heap.length = j := by simpa using hab
          omega
    · -- the request is served from the current block
      have hfit : toSize (s.nxtfree + alignSz sz) ≤ s.mblklen := Nat.not_lt.mp hf
      have hx := xalloc_fit s sz hfit
      rw [ht] at hfit hx
      have hw1 : s.nxtfree + alignSz sz < s.mblklen → ∃ k, k < s.heap.length ∧ s.mbuf = some k :=
        fun hlt => hw (by omega)
      have hi := ih (xalloc s sz).1 (by rw [hx]; exact h2) (by rw [hx]; exact hfit)
        (by rw [hx]; exact hw1)
        (by rw [hx]; intro z hz; exact hr z (List.mem_cons_of_mem _ hz))
      simp only [xallocSeq]
      rw [hx] at hi ⊢
      dsimp only at hi ⊢
      refine ⟨?_, ?_⟩
      · intro g hg
        rcases List.mem_cons.mp hg with rfl | hg
        · exact Or.inr (Or.inl ⟨rfl, Nat.le_refl _⟩)
        · rcases hi.1 g hg with h0 | ⟨hb, ho⟩ | ⟨j, hj, hb⟩
          · exact Or.inl h0
          · exact Or.inr (Or.inl ⟨hb, le_trans (Nat.le_add_right _ _) ho⟩)
          · exact Or.inr (Or.inr ⟨j, hj, hb⟩)
      · refine List.pairwise_cons.mpr ⟨?_, hi.2⟩
        intro b hb hab
        rcases hi.1 b hb with h0 | ⟨_, ho⟩ | ⟨j, hj, hbj⟩
        · exact Or.inr (Or.inl h0)
        · exact Or.inr (Or.inr ho)
        · by_cases hz : alignSz sz = 0
          · exact Or.inl hz
          · exfalso
            obtain ⟨k, hk, hmk⟩ := hw (by omega)
            rw [hbj] at hab
            have hab2 : s.mbuf = some j := hab
            rw [hmk] at hab2
            have hkj : k = j := by simpa using hab2
            omega

/-- C4: after `initmem`, for every list of requests whose rounded sizes are at
most `mblklen`, in a run of the program (every block of the memory is one the
system allocator can supply), every two distinct calls of the list whose
regions lie in the same slab, a block `k` of the memory with `mblklen` bytes,
have disjoint ranges: no offset belongs to the half-open ranges
`[off, off + len)` of both regions. -/
theorem regions_disjoint (m p : Nat) (s0 : MemState) (reqs : List Nat)
    (hr : ∀ sz ∈ reqs, alignSz sz ≤ (initmem m p s0).mblklen)
    (hx : suppliable (xallocSeq (initmem m p s0) reqs).2.heap) :
    ∀ (i j : Nat) (a b : Region) (k : Nat) (blk : Block), i ≠ j →
      (xallocSeq (initmem m p s0) reqs).1[i]? = some a →
      (xallocSeq (initmem m p s0) reqs).1[j]? = some b →
      a.ptr.base = some k → b.ptr.base = some k →
      (xallocSeq (initmem m p s0) reqs).2.heap[k]? = some blk →
      blk.length = (initmem m p s0).mblklen →
      ∀ x, ¬ (a.ptr.off ≤ x ∧ x < a.ptr.off + a.len ∧ b.ptr.off ≤ x ∧ x < b.ptr.off + b.len) := by
  intro i j a b k blk hne ha hb hak hbk hblk hlen
  have hmem : blk ∈ (xallocSeq (initmem m p s0) reqs).2.heap := by
    obtain ⟨hk, rfl⟩ := List.getElem?_eq_some.mp hblk
    exact List.getElem_mem _
  have hS := hx blk hmem
  rw [hlen] at hS
  have h2 : 2 * (initmem m p s0).mblklen < SIZE_MOD := by
    have hB : BLOCK_MAX = 9223372036854775808 := rfl
    have hM : SIZE_MOD = 18446744073709551616 := rfl
    omega
  have hs := (xallocSeq_sep reqs (initmem m p s0) h2 (Nat.le_refl _)
    (fun hlt => absurd hlt (Nat.lt_irrefl _)) hr).2
  rw [List.pairwise_iff_getElem] at hs
  have key : ∀ (i j : Nat) (a b : Region), i < j →
      (xallocSeq (initmem m p s0) reqs).1[i]? = some a →
      (xallocSeq (initmem m p s0) reqs).1[j]? = some b →
      a.ptr.base = b.ptr.base →
      a.len = 0 ∨ b.len = 0 ∨ a.ptr.off + a.len ≤ b.ptr.off := by
    intro i j a b hij ha hb hab
    obtain ⟨hi, rfl⟩ := List.getElem?_eq_some.mp ha
    obtain ⟨hj, rfl⟩ := List.getElem?_eq_some.mp hb
    exact hs i j hi hj hij hab
  intro x hx2
  rcases Nat.lt_or_gt_of_ne hne with hij | hji
  · have := key i j a b hij ha hb (hak.trans hbk.symm)
    omega
  · have := key j i b a hji hb ha (hbk.trans hak.symm)
    omega

/-- Witness of `regions_disjoint`: blocks of 4096 bytes, requests of 10, 20 and
4090 bytes; the first two regions lie in block 0. -/
theorem regions_disjoint_witness :
    ((∀ sz ∈ [10, 20, 4090], alignSz sz ≤ (initmem 1 4096 mem0).mblklen) ∧
      suppliable (xallocSeq (initmem 1 4096 mem0) [10, 20, 4090]).2.heap ∧
      ((xallocSeq (initmem 1 4096 mem0) [10, 20, 4090]).2.heap[0]?).map List.length =
        some (initmem 1 4096 mem0).mblklen) ∧
    ∀ x, ¬ (0 ≤ x ∧ x < 0 + 16 ∧ 16 ≤ x ∧ x < 16 + 24) :=
  have hh : (xallocSeq (initmem 1 4096 mem0) [10, 20, 4090]).2.heap =
      [List.replicate 4096 0, List.replicate 4096 0] := by
    simp only [xallocSeq]
    rw [xalloc_fresh (initmem 1 4096 mem0) 10 (by decide)]
    rw [xalloc_fit _ 20 (by decide)]
    rw [xalloc_fresh _ 4090 (by decide)]
    rfl
  have hx : suppliable (xallocSeq (initmem 1 4096 mem0) [10, 20, 4090]).2.heap := by
    rw [hh]
    intro b hb
    simp only [List.mem_cons, List.mem_singleton, List.not_mem_nil, or_false, or_self] at hb
    rw [hb, List.length_replicate]
    decide
  ⟨⟨by decide, hx, by
      rw [hh, List.getElem?_cons_zero, Option.map_some', List.length_replicate]; decide⟩,
   regions_disjoint 1 4096 mem0 [10, 20, 4090] (by decide) hx 0 1
     { ptr := { base := some 0, off := 0 }, len := 16 }
     { ptr := { base := some 0, off := 16 }, len := 24 } 0 (List.replicate 4096 0)
     (by decide) (by decide) (by decide) rfl rfl (by rw [hh]; rfl)
     (by rw [List.length_replicate]; decide)⟩

/-! ## The state left by `initmem` -/

/-- C6, as amended: `initmem` sets `nxtfree = mblklen` and leaves `mbuf` and the
memory alone; in that state, whatever the state before `initmem` was, the
first call of `xalloc` obtains a new block and returns its offset 0 for every
request whose rounded size `r` has `0 < r` and `mblklen + r < 2 ^ 64`; the block
is none of the blocks that existed before. -/
theorem initmem_forces_block (m p : Nat) (s : MemState) (sz : Nat)
    (hpos : 0 < alignSz sz) (hw : (initmem m p s).mblklen + alignSz sz < SIZE_MOD) :
    (initmem m p s).nxtfree = (initmem m p s).mblklen ∧
    (initmem m p s).mbuf = s.mbuf ∧ (initmem m p s).heap = s.heap ∧
    xalloc (initmem m p s) sz =
      ({ mblklen := (initmem m p s).mblklen, nxtfree := alignSz sz,
         mbuf := some s.heap.length,
         heap := s.heap ++ [List.replicate (initmem m p s).mblklen 0] },
       { base := some s.heap.length, off := 0 }) ∧
    (∀ k, k < s.heap.length → (xalloc (initmem m p s) sz).2.base ≠ some k) := by
  have hx := xalloc_fresh (initmem m p s) sz (by
    rw [initmem_nxtfree, toSize_of_lt hw]; omega)
  have hh : (initmem m p s).heap = s.heap := rfl
  rw [hh] at hx
  refine ⟨rfl, rfl, rfl, hx, ?_⟩
  intro k hk
  rw [hx]
  intro hc
  have : s.heap.length = k := by simpa using hc
  omega

/-- Witness of `initmem_forces_block`: the first request of 10 bytes with blocks
of 4096 bytes. -/
theorem initmem_forces_block_witness :
    (0 < alignSz 10 ∧ (initmem 1 4096 mem0).mblklen + alignSz 10 < SIZE_MOD) ∧
    (xalloc (initmem 1 4096 mem0) 10).2 = { base := some 0, off := 0 } :=
  ⟨by decide,
   congrArg Prod.snd (initmem_forces_block 1 4096 mem0 10 (by decide) (by decide)).2.2.2.1⟩

/-- C6, counterexample: right after `initmem` on the never-used allocator
(blocks of 4096 bytes), `xalloc(0)` obtains no block and hands out the
pointer `NULL + 4096`; so does `xalloc(2 ^ 64 - 4096)`, for which `nxtfree + r`
wraps to 0. -/
theorem initmem_zero_request :
    pageInit.nxtfree = pageInit.mblklen ∧ pageInit.mblklen = 4096 ∧
    pageInit.mbuf = none ∧ pageInit.heap = [] ∧
    xalloc pageInit 0 = (pageInit, { base := none, off := 4096 }) ∧
    (xalloc pageInit 0).1.heap = [] ∧
    alignSz 18446744073709547520 = 18446744073709547520 ∧
    (xalloc pageInit 18446744073709547520).2 = { base := none, off := 4096 } ∧
    (xalloc pageInit 18446744073709547520).1.heap = [] ∧
    (xalloc pageInit 18446744073709547520).1.nxtfree = 0 := by
  decide

/-! ## Requests of size zero -/

theorem alignSz_zero : alignSz 0 = 0 := by decide

/-- The memory after a list of requests: the old blocks followed by the newly
obtained ones, each of `mblklen` zero bytes; `mbuf` is the last new block, or
the old `mbuf` when no block was obtained. -/
theorem xallocSeq_heap (reqs : List Nat) :
    ∀ s : MemState, ∃ extra : List Block,
      (xallocSeq s reqs).2.heap = s.heap ++ extra ∧
      (xallocSeq s reqs).2.mblklen = s.mblklen ∧
      (∀ b ∈ extra, b = List.replicate s.mblklen 0) ∧
      (extra = [] → (xallocSeq s reqs).2.mbuf = s.mbuf) ∧
      (extra ≠ [] → (xallocSeq s reqs).2.mbuf = some (s.heap.length + extra.length - 1)) := by
  induction reqs with
  | nil => intro s; exact ⟨[], by simp [xallocSeq]⟩
  | cons sz rest ih =>
    intro s
    obtain ⟨e2, h1, h2, h3, h4, h5⟩ := ih (xalloc s sz).1
    simp only [xallocSeq]
    by_cases hf : s.mblklen < toSize (s.nxtfree + alignSz sz)
    · rw [xalloc_fresh s sz hf] at h1 h2 h3 h4 h5 ⊢
      dsimp only at h1 h2 h3 h4 h5 ⊢
      refine ⟨List.replicate s.mblklen 0 :: e2, ?_, h2, ?_, ?_, ?_⟩
      · rw [h1]; simp
      · intro b hb
        rcases List.mem_cons.mp hb with rfl | hb
        · rfl
        · exact h3 b hb
      · intro hc; exact absurd hc (List.cons_ne_nil _ _)
      · intro _
        by_cases he : e2 = []
        · rw [h4 he, he]; simp
        · rw [h5 he]
          have : 0 < e2.length := List.length_pos.mpr he
          simp only [List.length_append, List.length_cons, List.length_nil]
          congr 1
          omega
    · rw [xalloc_fit s sz (Nat.not_lt.mp hf)] at h1 h2 h3 h4 h5 ⊢
      dsimp only at h1 h2 h3 h4 h5 ⊢
      exact ⟨e2, h1, h2, h3, h4, h5⟩

/-- C7, as amended: in every state reached from `initmem` by calls of `xalloc`
whose rounded sizes are at most `mblklen`, in which a block has been obtained
since `initmem`: `xalloc(0)` has rounded size 0, obtains nothing and leaves the
whole state, `nxtfree` included, as it is; it returns `mbuf + nxtfree`, where
`mbuf` is a block that has been obtained, of `mblklen` bytes, and
`nxtfree ≤ mblklen`. -/
theorem zero_request (m p : Nat) (s0 : MemState) (reqs : List Nat)
    (hr : ∀ sz ∈ reqs, alignSz sz ≤ (initmem m p s0).mblklen)
    (hg : (initmem m p s0).heap.length < (xallocSeq (initmem m p s0) reqs).2.heap.length) :
    alignSz 0 = 0 ∧
    xalloc (xallocSeq (initmem m p s0) reqs).2 0 =
      ((xallocSeq (initmem m p s0) reqs).2,
       { base := (xallocSeq (initmem m p s0) reqs).2.mbuf,
         off := (xallocSeq (initmem m p s0) reqs).2.nxtfree }) ∧
    (xallocSeq (initmem m p s0) reqs).2.nxtfree ≤ (initmem m p s0).mblklen ∧
    ∃ k blk, (xallocSeq (initmem m p s0) reqs).2.mbuf = some k ∧
      (xallocSeq (initmem m p s0) reqs).2.heap[k]? = some blk ∧
      blk.length = (initmem m p s0).mblklen := by
  obtain ⟨extra, h1, hm, h3, _, h5⟩ := xallocSeq_heap reqs (initmem m p s0)
  have hb := xallocSeq_nxtfree_le reqs (initmem m p s0) (Nat.le_refl _) hr
  have hS : (initmem m p s0).mblklen < SIZE_MOD := toSize_lt _
  have hne : extra ≠ [] := by
    intro he
    rw [h1, he] at hg
    simp at hg
  have hpos : 0 < extra.length := List.length_pos.mpr hne
  refine ⟨alignSz_zero, ?_, hb, ?_⟩
  · have hlt : (xallocSeq (initmem m p s0) reqs).2.nxtfree < SIZE_MOD := by omega
    have hx := xalloc_fit (xallocSeq (initmem m p s0) reqs).2 0 (by
      rw [alignSz_zero, Nat.add_zero, toSize_of_lt hlt, hm]; exact hb)
    rw [alignSz_zero, Nat.add_zero, toSize_of_lt hlt] at hx
    exact hx
  · refine ⟨_, List.replicate (initmem m p s0).mblklen 0, h5 hne, ?_, by simp⟩
    rw [h1, List.getElem?_append_right (by omega)]
    have hidx : (initmem m p s0).heap.length + extra.length - 1 - (initmem m p s0).heap.length
        = extra.length - 1 := by omega
    rw [hidx]
    have hlt : extra.length - 1 < extra.length := by omega
    rw [List.getElem?_eq_getElem hlt]
    exact congrArg some (h3 _ (List.getElem_mem _))

/-- Witness of `zero_request`: blocks of 4096 bytes, after requests of 10 and 20
bytes. -/
theorem zero_request_witness :
    ((∀ sz ∈ [10, 20], alignSz sz ≤ (initmem 1 4096 mem0).mblklen) ∧
      (initmem 1 4096 mem0).heap.length < (xallocSeq (initmem 1 4096 mem0) [10, 20]).2.heap.length) ∧
    xalloc (xallocSeq (initmem 1 4096 mem0) [10, 20]).2 0 =
      ((xallocSeq (initmem 1 4096 mem0) [10, 20]).2,
       { base := (xallocSeq (initmem 1 4096 mem0) [10, 20]).2.mbuf,
         off := (xallocSeq (initmem 1 4096 mem0) [10, 20]).2.nxtfree }) :=
  ⟨by decide,
   (zero_request 1 4096 mem0 [10, 20] (by decide) (by decide)).2.1⟩

/-- C7, counterexample: (1) in the state right after `initmem` (blocks of 4096
bytes, nothing obtained yet) `xalloc(0)` returns `NULL + 4096`, which is no
offset into any block obtained; (2) in the state reached from `initmem` by
`xalloc(8192)`, where `nxtfree = 8192`, `xalloc(0)` obtains a second block and
sets `nxtfree` to 0. -/
theorem zero_request_fails :
    pageInit.heap = [] ∧
    (xalloc pageInit 0).2 = { base := none, off := 4096 } ∧
    (xalloc pageInit 0).1.heap = [] ∧
    (xallocSeq pageInit [8192]).2.nxtfree = 8192 ∧
    (xallocSeq pageInit [8192]).2.heap.length = 1 ∧
    (xalloc (xallocSeq pageInit [8192]).2 0).1.nxtfree = 0 ∧
    (xalloc (xallocSeq pageInit [8192]).2 0).1.heap.length = 2 := by
  decide

/-! ## Rollover at the end of a block -/

theorem totalLen_cons (a : Region) (l : List Region) : totalLen (a :: l) = a.len + totalLen l := by
  simp [totalLen]

/-- Requests that are all served inside the current block `k` advance `nxtfree`
by the sum of their rounded sizes. -/
theorem xallocSeq_pack (reqs : List Nat) :
    ∀ (s : MemState) (k : Nat), s.mbuf = some k → k < s.heap.length → s.mblklen < SIZE_MOD →
      (∀ g ∈ (xallocSeq s reqs).1, g.ptr.base = some k ∧ g.ptr.off + g.len ≤ s.mblklen) →
      (xallocSeq s reqs).2.nxtfree = s.nxtfree + totalLen (xallocSeq s reqs).1 ∧
      (xallocSeq s reqs).2.mblklen = s.mblklen := by
  induction reqs with
  | nil => intro s k _ _ _ _; simp [xallocSeq, totalLen]
  | cons sz rest ih =>
    intro s k hk hkl hS hall
    simp only [xallocSeq] at hall ⊢
    by_cases hf : s.mblklen < toSize (s.nxtfree + alignSz sz)
    · exfalso
      have ha := (hall _ (List.mem_cons_self _ _)).1
      rw [xalloc_fresh s sz hf] at ha
      have : s.heap.length = k := by simpa using ha
      omega
    · have hx := xalloc_fit s sz (Nat.not_lt.mp hf)
      rw [hx] at hall ⊢
      dsimp only at hall ⊢
      have ha := (hall _ (List.mem_cons_self _ _)).2
      dsimp only at ha
      have ht : toSize (s.nxtfree + alignSz sz) = s.nxtfree + alignSz sz :=
        toSize_of_lt (by omega)
      rw [ht] at hall ⊢
      have hi := ih { s with nxtfree := s.nxtfree + alignSz sz } k hk hkl hS
        (fun g hg => hall g (List.mem_cons_of_mem _ hg))
      dsimp only at hi
      rw [totalLen_cons]
      dsimp only
      exact ⟨by rw [hi.1]; omega, hi.2⟩

/-- Starting with `nxtfree = mblklen`: requests that all land within one block
and have positive total rounded size leave `nxtfree` at that total. -/
theorem xallocSeq_fill (reqs : List Nat) :
    ∀ s : MemState, s.nxtfree = s.mblklen → s.mblklen < SIZE_MOD →
      (∃ k, ∀ g ∈ (xallocSeq s reqs).1, g.ptr.base = some k ∧ g.ptr.off + g.len ≤ s.mblklen) →
      0 < totalLen (xallocSeq s reqs).1 →
      (xallocSeq s reqs).2.nxtfree = totalLen (xallocSeq s reqs).1 ∧
      (xallocSeq s reqs).2.mblklen = s.mblklen := by
  induction reqs with
  | nil => intro s _ _ _ hpos; simp [xallocSeq, totalLen] at hpos
  | cons sz rest ih =>
    intro s hc hS hone hpos
    obtain ⟨k, hall⟩ := hone
    simp only [xallocSeq] at hall hpos ⊢
    by_cases hf : s.mblklen < toSize (s.nxtfree + alignSz sz)
    · have hx := xalloc_fresh s sz hf
      rw [hx] at hall hpos ⊢
      dsimp only at hall hpos ⊢
      have ha := (hall _ (List.mem_cons_self _ _)).1
      have hk : s.heap.length = k := by simpa using ha
      have hp := xallocSeq_pack rest
        { mblklen := s.mblklen, nxtfree := alignSz sz, mbuf := some s.heap.length,
          heap := s.heap ++ [List.replicate s.mblklen 0] } k (by rw [hk]) (by simp [← hk]) hS
        (fun g hg => hall g (List.mem_cons_of_mem _ hg))
      dsimp only at hp
      rw [totalLen_cons]
      exact hp
    · have hx := xalloc_fit s sz (Nat.not_lt.mp hf)
      rw [hx] at hall hpos ⊢
      dsimp only at hall hpos ⊢
      have ha := (hall _ (List.mem_cons_self _ _)).2
      dsimp only at ha
      have hz : alignSz sz = 0 := by omega
      have ht : toSize (s.nxtfree + alignSz sz) = s.nxtfree := by
        rw [hz, Nat.add_zero]; exact toSize_of_lt (by omega)
      rw [ht] at hall hpos ⊢
      rw [totalLen_cons] at hpos ⊢
      dsimp only at hpos ⊢
      rw [hz, Nat.zero_add] at hpos ⊢
      have hs : ({ s with nxtfree := s.nxtfree } : MemState) = s := rfl
      rw [hs] at hall hpos ⊢
      exact ih s hc hS ⟨k, fun g hg => hall g (List.mem_cons_of_mem _ hg)⟩ hpos

/-- C8, as amended: given `mblklen = S > 0`, after `initmem` and a list of calls
whose regions all lie within one block and whose rounded sizes sum to exactly
`S`, `nxtfree = S`, and the next call obtains a fresh block and returns its
offset 0 for every request whose rounded size `r` has `0 < r` and
`S + r < 2 ^ 64`. -/
theorem rollover (m p : Nat) (s0 : MemState) (reqs : List Nat) (sz : Nat)
    (hS : 0 < (initmem m p s0).mblklen)
    (hone : ∃ k, ∀ g ∈ (xallocSeq (initmem m p s0) reqs).1,
      g.ptr.base = some k ∧ g.ptr.off + g.len ≤ (initmem m p s0).mblklen)
    (hsum : totalLen (xallocSeq (initmem m p s0) reqs).1 = (initmem m p s0).mblklen)
    (hpos : 0 < alignSz sz)
    (hw : (initmem m p s0).mblklen + alignSz sz < SIZE_MOD) :
    (xallocSeq (initmem m p s0) reqs).2.nxtfree = (initmem m p s0).mblklen ∧
    xalloc (xallocSeq (initmem m p s0) reqs).2 sz =
      ({ mblklen := (initmem m p s0).mblklen, nxtfree := alignSz sz,
         mbuf := some (xallocSeq (initmem m p s0) reqs).2.heap.length,
         heap := (xallocSeq (initmem m p s0) reqs).2.heap ++
           [List.replicate (initmem m p s0).mblklen 0] },
       { base := some (xallocSeq (initmem m p s0) reqs).2.heap.length, off := 0 }) := by
  have hlt : (initmem m p s0).mblklen < SIZE_MOD := by omega
  have hf := xallocSeq_fill reqs (initmem m p s0) rfl hlt hone (by rw [hsum]; exact hS)
  rw [hsum] at hf
  refine ⟨hf.1, ?_⟩
  have hx := xalloc_fresh (xallocSeq (initmem m p s0) reqs).2 sz (by
    rw [hf.1, hf.2, toSize_of_lt hw]; omega)
  rw [hf.2] at hx
  exact hx

/-- Witness of `rollover`: blocks of 4096 bytes; requests of 10 and 4080 bytes
fill block 0 exactly, the next request of 1 byte gets offset 0 of block 1. -/
theorem rollover_witness :
    (0 < (initmem 1 4096 mem0).mblklen ∧
      totalLen (xallocSeq (initmem 1 4096 mem0) [10, 4080]).1 = (initmem 1 4096 mem0).mblklen ∧
      0 < alignSz 1 ∧ (initmem 1 4096 mem0).mblklen + alignSz 1 < SIZE_MOD) ∧
    (xalloc (xallocSeq (initmem 1 4096 mem0) [10, 4080]).2 1).2 = { base := some 1, off := 0 } :=
  ⟨by decide,
   (congrArg Prod.snd (rollover 1 4096 mem0 [10, 4080] 1 (by decide) ⟨0, by decide⟩ (by decide)
      (by decide) (by decide)).2).trans (by decide)⟩

/-- C8, counterexample: blocks of `S = 4096` bytes; after `initmem` the requests
of 10 and 4080 bytes land in block 0 and their rounded sizes sum to 4096, so
`nxtfree = 4096`.  The next call `xalloc(0)` obtains no block and returns offset
4096 of block 0; so does the next call `xalloc(2 ^ 64 - 8)`, for which
`nxtfree + r` wraps to 4088. -/
theorem rollover_fails :
    pageInit.mblklen = 4096 ∧
    (xallocSeq pageInit [10, 4080]).1 =
      [{ ptr := { base := some 0, off := 0 }, len := 16 },
       { ptr := { base := some 0, off := 16 }, len := 4080 }] ∧
    (xallocSeq pageInit [10, 4080]).2.nxtfree = 4096 ∧
    (xallocSeq pageInit [10, 4080]).2.heap.length = 1 ∧
    (xalloc (xallocSeq pageInit [10, 4080]).2 0).2 = { base := some 0, off := 4096 } ∧
    (xalloc (xallocSeq pageInit [10, 4080]).2 0).1.heap.length = 1 ∧
    (xalloc (xallocSeq pageInit [10, 4080]).2 18446744073709551608).2 =
      { base := some 0, off := 4096 } ∧
    (xalloc (xallocSeq pageInit [10, 4080]).2 18446744073709551608).1.heap.length = 1 ∧
    (xalloc (xallocSeq pageInit [10, 4080]).2 18446744073709551608).1.nxtfree = 4088 := by
  decide

/-! ## Zero-fill -/

theorem byteAt_lt {h : Heap} {k i v : Nat} (hb : byteAt h k i = some v) : k < h.length := by
  unfold byteAt at hb
  by_contra hk
  have : h.get? k = none := by simp; omega
  rw [this] at hb
  exact absurd hb (by simp)

theorem byteAt_append_left (h e : Heap) (k i : Nat) (hk : k < h.length) :
    byteAt (h ++ e) k i = byteAt h k i := by
  unfold byteAt
  simp [List.getElem?_append_left hk]

theorem byteAt_fresh (h : Heap) (n i : Nat) (hi : i < n) :
    byteAt (h ++ [List.replicate n 0]) h.length i = some 0 := by
  unfold byteAt
  simp [hi]

theorem length_storeByte (h : Heap) (blk off val : Nat) :
    (storeByte h blk off val).length = h.length := by
  unfold storeByte
  cases h.get? blk <;> simp

theorem byteAt_storeByte (h : Heap) (blk off val k i : Nat) (hne : blk ≠ k ∨ off ≠ i) :
    byteAt (storeByte h blk off val) k i = byteAt h k i := by
  unfold storeByte
  cases hb : h.get? blk with
  | none => rfl
  | some b =>
    dsimp only
    unfold byteAt
    by_cases hk : blk = k
    · subst hk
      have hoff : off ≠ i := by
        rcases hne with h1 | h1
        · exact absurd rfl h1
        · exact h1
      have hlt : blk < h.length := by
        simp only [List.get?_eq_getElem?] at hb
        exact (List.getElem?_eq_some.mp hb).1
      simp only [List.get?_eq_getElem?] at hb ⊢
      rw [List.getElem?_set_self hlt, hb]
      simp [List.getElem?_set_ne hoff]
    · simp [List.getElem?_set_ne hk]

theorem byteAt_storeByte_self (h : Heap) (b : Block) (blk off val : Nat)
    (hb : h.get? blk = some b) (hoff : off < b.length) :
    byteAt (storeByte h blk off val) blk off = some (val % 256) := by
  have hlt : blk < h.length := by
    simp only [List.get?_eq_getElem?] at hb
    exact (List.getElem?_eq_some.mp hb).1
  unfold storeByte
  rw [hb]
  dsimp only
  unfold byteAt
  simp only [List.get?_eq_getElem?]
  rw [List.getElem?_set_self hlt]
  dsimp only
  exact List.getElem?_set_self hoff

theorem xalloc_fit_heap (s : MemState) (sz : Nat)
    (h : toSize (s.nxtfree + alignSz sz) ≤ s.mblklen) : (xalloc s sz).1.heap = s.heap := by
  rw [xalloc_fit s sz h]

theorem covers_iff (g : Region) (blk x : Nat) :
    g.covers blk x = true ↔ g.ptr.base = some blk ∧ g.ptr.off ≤ x ∧ x < g.ptr.off + g.len := by
  simp [Region.covers, and_assoc]

/-- Every action of a disciplined caller keeps the invariant, for blocks of
fewer than `2 ^ 63` bytes. -/
theorem ZeroInv_step (S : Nat) (c : Run) (op : Op) (h2 : 2 * S < SIZE_MOD)
    (hinv : ZeroInv S c) (hop : c.allowed op = true) : ZeroInv S (c.step op) := by
  obtain ⟨h1, hc, h3, h4⟩ := hinv
  cases op with
  | alloc sz =>
    have hr : alignSz sz ≤ S := by
      simpa [Run.allowed, h1] using hop
    have ht : toSize (c.st.nxtfree + alignSz sz) = c.st.nxtfree + alignSz sz :=
      toSize_of_lt (by omega)
    by_cases hf : c.st.mblklen < toSize (c.st.nxtfree + alignSz sz)
    · have hx := xalloc_fresh c.st sz hf
      simp only [Run.step, ZeroInv]
      rw [hx]
      dsimp only
      refine ⟨h1, hr, ?_, ?_⟩
      · intro g hg hpos
        rcases List.mem_cons.mp hg with rfl | hg
        · exact ⟨c.st.heap.length, rfl, by simp, fun _ => by simp⟩
        · obtain ⟨k, hk1, hk2, _⟩ := h3 g hg hpos
          refine ⟨k, hk1, by simp; omega, ?_⟩
          intro hm
          have : c.st.heap.length = k := by simpa using hm
          omega
      · intro _
        refine ⟨c.st.heap.length, rfl, ?_⟩
        intro i _ hi
        rw [h1]
        exact byteAt_fresh c.st.heap S i hi
    · have hfit : toSize (c.st.nxtfree + alignSz sz) ≤ c.st.mblklen := Nat.not_lt.mp hf
      have hx := xalloc_fit c.st sz hfit
      rw [ht] at hfit hx
      simp only [Run.step, ZeroInv]
      rw [hx]
      dsimp only
      refine ⟨h1, by omega, ?_, ?_⟩
      · intro g hg hpos
        rcases List.mem_cons.mp hg with rfl | hg
        · dsimp only at hpos ⊢
          obtain ⟨k, hk, hz⟩ := h4 (by omega)
          have hb := hz c.st.nxtfree (Nat.le_refl _) (by omega)
          exact ⟨k, hk, byteAt_lt hb, fun _ => Nat.le_refl _⟩
        · obtain ⟨k, hk1, hk2, hk3⟩ := h3 g hg hpos
          exact ⟨k, hk1, hk2, fun hm => le_trans (hk3 hm) (Nat.le_add_right _ _)⟩
      · intro hlt
        obtain ⟨k, hk, hz⟩ := h4 (by omega)
        exact ⟨k, hk, fun i hi1 hi2 => hz i (by omega) hi2⟩
  | store blk off val =>
    simp only [Run.allowed, List.any_eq_true] at hop
    obtain ⟨g, hg, hcov⟩ := hop
    obtain ⟨hgb, hgo, hgl⟩ := (covers_iff g blk off).mp hcov
    obtain ⟨k0, hk0, _, hk0c⟩ := h3 g hg (by omega)
    have hkb : k0 = blk := by
      rw [hgb] at hk0
      exact (Option.some.inj hk0).symm
    subst hkb
    simp only [Run.step, ZeroInv]
    refine ⟨h1, hc, ?_, ?_⟩
    · intro g2 hg2 hpos
      obtain ⟨k, hk1, hk2, hk3⟩ := h3 g2 hg2 hpos
      exact ⟨k, hk1, by rw [length_storeByte]; exact hk2, hk3⟩
    · intro hlt
      obtain ⟨k, hk, hz⟩ := h4 hlt
      refine ⟨k, hk, ?_⟩
      intro i hi1 hi2
      rw [byteAt_storeByte]
      · exact hz i hi1 hi2
      · by_cases hkk : k0 = k
        · right
          subst hkk
          have := hk0c hk
          omega
        · exact Or.inl hkk

theorem ZeroInv_exec (S : Nat) (h2 : 2 * S < SIZE_MOD) (ops : List Op) :
    ∀ c : Run, ZeroInv S c → c.allowedAll ops = true → ZeroInv S (c.exec ops) := by
  induction ops with
  | nil => intro c hinv _; exact hinv
  | cons op rest ih =>
    intro c hinv hall
    simp only [Run.allowedAll, Bool.and_eq_true] at hall
    exact ih (c.step op) (ZeroInv_step S c op h2 hinv hall.1) hall.2

theorem ZeroInv_init (m p : Nat) (s0 : MemState) :
    ZeroInv (initmem m p s0).mblklen { st := initmem m p s0, given := [] } := by
  refine ⟨rfl, Nat.le_refl _, ?_, ?_⟩
  · intro g hg; exact absurd hg (List.not_mem_nil g)
  · intro hlt; exact absurd hlt (Nat.lt_irrefl _)

/-- C10, as amended: every call of `xalloc`, in any state, leaves the memory as
it is or appends one block of `mblklen` zero bytes.  When callers store only
into regions returned to them and request at most a block at a time, and
`mblklen < 2 ^ 63`, then in the state reached from `initmem` by any such caller
every byte of the region that `xalloc` returns is zero when it is returned,
and the bytes of the current block from `nxtfree` up to `mblklen` are zero. -/
theorem zero_fill (m p : Nat) (s0 : MemState) (ops : List Op) (sz : Nat)
    (h2 : 2 * (initmem m p s0).mblklen < SIZE_MOD)
    (hops : Run.allowedAll { st := initmem m p s0, given := [] } ops = true)
    (hr : alignSz sz ≤ (initmem m p s0).mblklen) :
    (∀ (s : MemState) (z : Nat), (xalloc s z).1.heap = s.heap ∨
      (xalloc s z).1.heap = s.heap ++ [List.replicate s.mblklen 0]) ∧
    (∀ i, i < alignSz sz → ∃ k,
      (xalloc (Run.exec { st := initmem m p s0, given := [] } ops).st sz).2.base = some k ∧
      byteAt (xalloc (Run.exec { st := initmem m p s0, given := [] } ops).st sz).1.heap k
        ((xalloc (Run.exec { st := initmem m p s0, given := [] } ops).st sz).2.off + i) = some 0) ∧
    (∀ k, (Run.exec { st := initmem m p s0, given := [] } ops).st.mbuf = some k →
      ∀ i, (Run.exec { st := initmem m p s0, given := [] } ops).st.nxtfree ≤ i →
        i < (initmem m p s0).mblklen →
        byteAt (Run.exec { st := initmem m p s0, given := [] } ops).st.heap k i = some 0) := by
  have hinv := ZeroInv_exec _ h2 ops _ (ZeroInv_init m p s0) hops
  generalize Run.exec { st := initmem m p s0, given := [] } ops = c at hinv ⊢
  generalize (initmem m p s0).mblklen = S at hinv h2 hr ⊢
  obtain ⟨h1, hc, _, h4⟩ := hinv
  have ht : toSize (c.st.nxtfree + alignSz sz) = c.st.nxtfree + alignSz sz :=
    toSize_of_lt (by omega)
  refine ⟨?_, ?_, ?_⟩
  · intro s z
    by_cases hf : s.mblklen < toSize (s.nxtfree + alignSz z)
    · right; rw [xalloc_fresh s z hf]
    · left; rw [xalloc_fit s z (Nat.not_lt.mp hf)]
  · intro i hi
    by_cases hf : c.st.mblklen < toSize (c.st.nxtfree + alignSz sz)
    · rw [xalloc_fresh c.st sz hf]
      refine ⟨c.st.heap.length, rfl, ?_⟩
      dsimp only
      rw [Nat.zero_add, h1]
      exact byteAt_fresh c.st.heap S i (by omega)
    · have hfit : toSize (c.st.nxtfree + alignSz sz) ≤ c.st.mblklen := Nat.not_lt.mp hf
      rw [xalloc_fit c.st sz hfit]
      rw [ht] at hfit
      obtain ⟨k, hk, hz⟩ := h4 (by omega)
      refine ⟨k, hk, ?_⟩
      dsimp only
      exact hz _ (Nat.le_add_right _ _) (by omega)
  · intro k hk i hi1 hi2
    obtain ⟨k2, hk2, hz⟩ := h4 (by omega)
    rw [hk] at hk2
    have hkk : k = k2 := Option.some.inj hk2
    subst hkk
    exact hz i hi1 hi2

/-- Witness of `zero_fill`: blocks of 4096 bytes; the caller gets 16 bytes,
stores 255 into one of them and gets 24 more; a further request of 8 bytes
is answered with offset 40 of block 0, whose first byte is zero. -/
theorem zero_fill_witness :
    (2 * (initmem 1 4096 mem0).mblklen < SIZE_MOD ∧
      Run.allowedAll { st := initmem 1 4096 mem0, given := [] }
        [Op.alloc 10, Op.store 0 3 255, Op.alloc 20] = true ∧
      alignSz 8 ≤ (initmem 1 4096 mem0).mblklen) ∧
    ∃ k, (xalloc (Run.exec { st := initmem 1 4096 mem0, given := [] }
        [Op.alloc 10, Op.store 0 3 255, Op.alloc 20]).st 8).2.base = some k ∧
      byteAt (xalloc (Run.exec { st := initmem 1 4096 mem0, given := [] }
        [Op.alloc 10, Op.store 0 3 255, Op.alloc 20]).st 8).1.heap k
        ((xalloc (Run.exec { st := initmem 1 4096 mem0, given := [] }
          [Op.alloc 10, Op.store 0 3 255, Op.alloc 20]).st 8).2.off + 0) = some 0 :=
  ⟨by decide,
   (zero_fill 1 4096 mem0 [Op.alloc 10, Op.store 0 3 255, Op.alloc 20] 8
      (by decide) (by decide) (by decide)).2.1 0 (by decide)⟩

/-- C10, counterexample: blocks of `2 ^ 64 - 4096` bytes.  (1) The first request
after `initmem`, of 4096 bytes, is answered with `NULL + mblklen`: the region
lies in no block, none of its bytes is a zero byte of a block.  (2) A caller
that gets 8 bytes, stores 255 into the first of them, then gets
`2 ^ 64 - 4104` and 4096 bytes (all rounded sizes at most `mblklen`, the store
inside the first region) is next given the region `[0, 8)` of block 0 again,
whose first byte is 255. -/
theorem zero_fill_wraps :
    alignSz 4096 ≤ hugeInit.mblklen ∧
    (xalloc hugeInit 4096).2 = { base := none, off := 18446744073709547520 } ∧
    ¬ (∀ i, i < alignSz 4096 → ∃ k, (xalloc hugeInit 4096).2.base = some k ∧
      byteAt (xalloc hugeInit 4096).1.heap k ((xalloc hugeInit 4096).2.off + i) = some 0) ∧
    Run.allowedAll { st := hugeInit, given := [] }
      [Op.alloc 8, Op.store 0 0 255, Op.alloc 18446744073709547512, Op.alloc 4096] = true ∧
    alignSz 8 ≤ hugeInit.mblklen ∧
    (xalloc (Run.exec { st := hugeInit, given := [] }
      [Op.alloc 8, Op.store 0 0 255, Op.alloc 18446744073709547512, Op.alloc 4096]).st 8).2 =
      { base := some 0, off := 0 } ∧
    byteAt (xalloc (Run.exec { st := hugeInit, given := [] }
      [Op.alloc 8, Op.store 0 0 255, Op.alloc 18446744073709547512, Op.alloc 4096]).st 8).1.heap
      0 0 = some 255 := by
  refine ⟨by decide, by decide, ?_, by decide, by decide, by decide, ?_⟩
  swap
  · have a1 : (xalloc (Run.exec { st := hugeInit, given := [] }
        [Op.alloc 8, Op.store 0 0 255, Op.alloc 18446744073709547512, Op.alloc 4096]).st 8).1.heap
        = (Run.exec { st := hugeInit, given := [] }
        [Op.alloc 8, Op.store 0 0 255, Op.alloc 18446744073709547512, Op.alloc 4096]).st.heap :=
      xalloc_fit_heap _ _ (by decide)
    have a2 : (Run.exec { st := hugeInit, given := [] }
        [Op.alloc 8, Op.store 0 0 255, Op.alloc 18446744073709547512, Op.alloc 4096]).st.heap
        = (xalloc (Run.exec { st := hugeInit, given := [] }
        [Op.alloc 8, Op.store 0 0 255, Op.alloc 18446744073709547512]).st 4096).1.heap := rfl
    have a3 : (xalloc (Run.exec { st := hugeInit, given := [] }
        [Op.alloc 8, Op.store 0 0 255, Op.alloc 18446744073709547512]).st 4096).1.heap
        = (Run.exec { st := hugeInit, given := [] }
        [Op.alloc 8, Op.store 0 0 255, Op.alloc 18446744073709547512]).st.heap :=
      xalloc_fit_heap _ _ (by decide)
    have a4 : (Run.exec { st := hugeInit, given := [] }
        [Op.alloc 8, Op.store 0 0 255, Op.alloc 18446744073709547512]).st.heap
        = (xalloc (Run.exec { st := hugeInit, given := [] }
        [Op.alloc 8, Op.store 0 0 255]).st 18446744073709547512).1.heap := rfl
    have a5 : (xalloc (Run.exec { st := hugeInit, given := [] }
        [Op.alloc 8, Op.store 0 0 255]).st 18446744073709547512).1.heap
        = (Run.exec { st := hugeInit, given := [] } [Op.alloc 8, Op.store 0 0 255]).st.heap :=
      xalloc_fit_heap _ _ (by decide)
    have a6 : (Run.exec { st := hugeInit, given := [] } [Op.alloc 8, Op.store 0 0 255]).st.heap
        = storeByte (xalloc hugeInit 8).1.heap 0 0 255 := rfl
    have a7 : (xalloc hugeInit 8).1.heap = [] ++ [List.replicate 18446744073709547520 0] := by
      rw [xalloc_fresh hugeInit 8 (by decide)]
      rfl
    rw [a1, a2, a3, a4, a5, a6, a7]
    exact byteAt_storeByte_self _ (List.replicate 18446744073709547520 0) 0 0 255 rfl
      (by rw [List.length_replicate]; decide)
  intro h
  obtain ⟨k, hk, _⟩ := h 0 (by decide)
  have hb : (xalloc hugeInit 4096).2.base = none := by decide
  rw [hb] at hk
  exact absurd hk (by simp)

/-! ## The memory only grows -/

/-- C11: with the memory as the list of blocks obtained so far, every call of
`xalloc` leaves the list as it is (and `mbuf` with it) or appends exactly one
block of `mblklen` bytes, which becomes `mbuf`; every block that existed keeps
its place and its contents, after one call and after any list of calls; so the
number of blocks times `mblklen`, and the number of bytes obtained, never
decrease. -/
theorem heap_monotone (s : MemState) (sz : Nat) (reqs : List Nat) :
    (((xalloc s sz).1.heap = s.heap ∧ (xalloc s sz).1.mbuf = s.mbuf) ∨
      (∃ blk : Block, blk.length = s.mblklen ∧ (xalloc s sz).1.heap = s.heap ++ [blk] ∧
        (xalloc s sz).1.mbuf = some s.heap.length)) ∧
    (∀ k, k < s.heap.length → (xalloc s sz).1.heap[k]? = s.heap[k]?) ∧
    (∃ extra : List Block, (xallocSeq s reqs).2.heap = s.heap ++ extra ∧
      ∀ b ∈ extra, b.length = s.mblklen) ∧
    (∀ k, k < s.heap.length → (xallocSeq s reqs).2.heap[k]? = s.heap[k]?) ∧
    (xallocSeq s reqs).2.mblklen = s.mblklen ∧
    s.heap.length * s.mblklen ≤
      (xallocSeq s reqs).2.heap.length * (xallocSeq s reqs).2.mblklen ∧
    (s.heap.map List.length).sum ≤ ((xallocSeq s reqs).2.heap.map List.length).sum := by
  have hone : ((xalloc s sz).1.heap = s.heap ∧ (xalloc s sz).1.mbuf = s.mbuf) ∨
      (∃ blk : Block, blk.length = s.mblklen ∧ (xalloc s sz).1.heap = s.heap ++ [blk] ∧
        (xalloc s sz).1.mbuf = some s.heap.length) := by
    by_cases hf : s.mblklen < toSize (s.nxtfree + alignSz sz)
    · right
      rw [xalloc_fresh s sz hf]
      exact ⟨List.replicate s.mblklen 0, List.length_replicate _ _, rfl, rfl⟩
    · left
      rw [xalloc_fit s sz (Nat.not_lt.mp hf)]
      exact ⟨rfl, rfl⟩
  obtain ⟨extra, h1, hm, h3, _, _⟩ := xallocSeq_heap reqs s
  refine ⟨hone, ?_, ⟨extra, h1, ?_⟩, ?_, hm, ?_, ?_⟩
  · intro k hk
    rcases hone with ⟨h, _⟩ | ⟨blk, _, h, _⟩
    · rw [h]
    · rw [h, List.getElem?_append_left hk]
  · intro b hb
    rw [h3 b hb, List.length_replicate]
  · intro k hk
    rw [h1, List.getElem?_append_left hk]
  · rw [h1, hm, List.length_append]
    exact Nat.mul_le_mul_right _ (Nat.le_add_right _ _)
  · rw [h1, List.map_append, List.sum_append]
    exact Nat.le_add_right _ _

/-! ## Rounding -/

/-- C12, as amended: for every request `sz` the rounded size `(sz + 7) & ~7` is
a multiple of 8, and it equals `sz` when `sz` is a `size_t` value that is a
multiple of 8; for every `sz` with `sz + 7 < 2 ^ 64` it is the least multiple of
8 that is at least `sz`, with `sz ≤ rounded < sz + 8`. -/
theorem rounding (sz : Nat) :
    8 ∣ alignSz sz ∧
    (sz < SIZE_MOD → 8 ∣ sz → alignSz sz = sz) ∧
    (sz + 7 < SIZE_MOD →
      sz ≤ alignSz sz ∧ alignSz sz < sz + 8 ∧ ∀ k, 8 ∣ k → sz ≤ k → alignSz sz ≤ k) := by
  have hS : SIZE_MOD = 18446744073709551616 := rfl
  refine ⟨alignSz_dvd sz, ?_, ?_⟩
  · intro hlt h8
    rw [alignSz_eq]
    obtain ⟨q, rfl⟩ := h8
    have : 8 * q + 7 < SIZE_MOD := by omega
    rw [Nat.mod_eq_of_lt this]
    omega
  · intro hlt
    rw [alignSz_eq, Nat.mod_eq_of_lt hlt]
    refine ⟨by omega, by omega, ?_⟩
    rintro k ⟨q, rfl⟩ hk
    omega

/-- Witness of `rounding`: 10 is rounded to 16, 16 stays 16. -/
theorem rounding_witness :
    (16 < SIZE_MOD ∧ 8 ∣ 16 ∧ 10 + 7 < SIZE_MOD) ∧
    alignSz 16 = 16 ∧ (10 ≤ alignSz 10 ∧ alignSz 10 < 10 + 8) :=
  ⟨by decide, (rounding 16).2.1 (by decide) (by decide),
   ((rounding 10).2.2 (by decide)).1, ((rounding 10).2.2 (by decide)).2.1⟩

/-- C12, counterexample: the `size_t` value `2 ^ 64 - 1` is rounded to 0, which is
smaller than the request; so is every request above `2 ^ 64 - 8`. -/
theorem rounding_wraps :
    (18446744073709551615 : Nat) < SIZE_MOD ∧
    alignSz 18446744073709551615 = 0 ∧
    ¬ (18446744073709551615 ≤ alignSz 18446744073709551615) ∧
    alignSz 18446744073709551609 = 0 := by
  decide

/-! ## Requests larger than a block -/

/-- C13: in a state with `nxtfree ≤ mblklen`, for a request whose rounded size
`r` exceeds `mblklen` (and `nxtfree + r < 2 ^ 64`), `xalloc` returns as for any
other request: it obtains a new block of only `mblklen` bytes, returns its
offset 0 and leaves `nxtfree = r > mblklen`; `nxtfree ≤ mblklen` no longer holds
and the returned region `[0, r)` ends beyond the `mblklen` bytes of its block. -/
theorem oversized (s : MemState) (sz : Nat)
    (_hc : s.nxtfree ≤ s.mblklen) (hr : s.mblklen < alignSz sz)
    (hw : s.nxtfree + alignSz sz < SIZE_MOD) :
    xalloc s sz =
      ({ mblklen := s.mblklen, nxtfree := alignSz sz, mbuf := some s.heap.length,
         heap := s.heap ++ [List.replicate s.mblklen 0] },
       { base := some s.heap.length, off := 0 }) ∧
    (xalloc s sz).1.heap[s.heap.length]? = some (List.replicate s.mblklen 0) ∧
    (List.replicate s.mblklen 0).length = s.mblklen ∧
    ¬ ((xalloc s sz).1.nxtfree ≤ (xalloc s sz).1.mblklen) ∧
    s.mblklen < (xalloc s sz).2.off + alignSz sz := by
  have hx := xalloc_fresh s sz (by rw [toSize_of_lt hw]; omega)
  rw [hx]
  refine ⟨rfl, by simp, List.length_replicate _ _, ?_, ?_⟩
  · dsimp only; omega
  · dsimp only; omega

/-- Witness of `oversized`: blocks of 4096 bytes, a first request of 8192 bytes. -/
theorem oversized_witness :
    (pageInit.nxtfree ≤ pageInit.mblklen ∧ pageInit.mblklen < alignSz 8192 ∧
      pageInit.nxtfree + alignSz 8192 < SIZE_MOD) ∧
    ¬ ((xalloc pageInit 8192).1.nxtfree ≤ (xalloc pageInit 8192).1.mblklen) :=
  ⟨by decide, (oversized pageInit 8192 (by decide) (by decide) (by decide)).2.2.2.1⟩

/-! ## Wraparound -/

/-- C14: there are a state reached from `initmem` and a request for which
`nxtfree + r` wraps modulo `2 ^ 64`, so that `xalloc` obtains no block and leaves
`nxtfree` smaller than before, after which a request that fits is answered with
a region overlapping one returned earlier from the same block.  With blocks
of 4096 bytes: `xalloc(16)` twice returns `[0, 16)` and `[16, 32)` of block 0;
`xalloc(2 ^ 64 - 8)` returns offset 32 and leaves `nxtfree = 24`; `xalloc(8)` then
returns `[24, 32)` of block 0, inside `[16, 32)`. -/
theorem wraparound :
    pageInit.mblklen = 4096 ∧
    (xallocSeq pageInit [16, 16]).1 =
      [{ ptr := { base := some 0, off := 0 }, len := 16 },
       { ptr := { base := some 0, off := 16 }, len := 16 }] ∧
    (xallocSeq pageInit [16, 16]).2.nxtfree = 32 ∧
    alignSz 18446744073709551608 = 18446744073709551608 ∧
    SIZE_MOD ≤ (xallocSeq pageInit [16, 16]).2.nxtfree + alignSz 18446744073709551608 ∧
    (xalloc (xallocSeq pageInit [16, 16]).2 18446744073709551608).2 =
      { base := some 0, off := 32 } ∧
    (xalloc (xallocSeq pageInit [16, 16]).2 18446744073709551608).1.heap.length =
      (xallocSeq pageInit [16, 16]).2.heap.length ∧
    (xalloc (xallocSeq pageInit [16, 16]).2 18446744073709551608).1.nxtfree = 24 ∧
    (xalloc (xallocSeq pageInit [16, 16]).2 18446744073709551608).1.nxtfree <
      (xallocSeq pageInit [16, 16]).2.nxtfree ∧
    alignSz 8 ≤ pageInit.mblklen ∧
    (xalloc (xalloc (xallocSeq pageInit [16, 16]).2 18446744073709551608).1 8).2 =
      { base := some 0, off := 24 } ∧
    (∃ (s : MemState) (big : Nat) (a b : Region),
      s = (xallocSeq pageInit [16, 16]).2 ∧ a ∈ (xallocSeq pageInit [16, 16]).1 ∧
      SIZE_MOD ≤ s.nxtfree + alignSz big ∧
      (xalloc s big).1.heap = s.heap ∧ (xalloc s big).1.nxtfree < s.nxtfree ∧
      b = { ptr := (xalloc (xalloc s big).1 8).2, len := alignSz 8 } ∧
      a.ptr.base = b.ptr.base ∧
      ∃ x, a.ptr.off ≤ x ∧ x < a.ptr.off + a.len ∧ b.ptr.off ≤ x ∧ x < b.ptr.off + b.len) := by
  refine ⟨by decide, by decide, by decide, by decide, by decide, by decide, by decide, by decide,
    by decide, by decide, by decide, ?_⟩
  refine ⟨_, 18446744073709551608, { ptr := { base := some 0, off := 16 }, len := 16 }, _,
    rfl, by decide, by decide, ?_, by decide, rfl, by decide, 24, by decide⟩
  exact xalloc_fit_heap _ _ (by decide)

/-! ## Packing within a block -/

theorem totalLen_nil : totalLen [] = 0 := rfl

theorem totalLen_append (l1 l2 : List Region) :
    totalLen (l1 ++ l2) = totalLen l1 + totalLen l2 := by
  simp [totalLen]

/-- The regions of a list that lie in block `n` have total size 0 when each of
them is empty. -/
theorem totalLen_filter_zero (pre : List Region) (n : Nat)
    (hpre : ∀ a ∈ pre, a.ptr.base = some n → a.len = 0) :
    totalLen (pre.filter (fun a => a.ptr.base == some n)) = 0 := by
  induction pre with
  | nil => rfl
  | cons a rest ih =>
    have hrest := ih (fun b hb => hpre b (List.mem_cons_of_mem _ hb))
    by_cases hb : a.ptr.base = some n
    · have h0 := hpre a (List.mem_cons_self _ _) hb
      have hf : (a.ptr.base == some n) = true := by simp [hb]
      rw [List.filter_cons, if_pos hf, totalLen_cons, h0, hrest]
    · have hf : ¬ (a.ptr.base == some n) = true := by simpa using hb
      rw [List.filter_cons, if_neg hf, hrest]

theorem xallocSeq_append (l1 l2 : List Nat) :
    ∀ s : MemState, (xallocSeq s (l1 ++ l2)).2 = (xallocSeq (xallocSeq s l1).2 l2).2 := by
  induction l1 with
  | nil => intro s; rfl
  | cons sz rest ih =>
    intro s
    simp only [List.cons_append, xallocSeq]
    exact ih (xalloc s sz).1

/-- The memory after the first `n` requests is a beginning of the memory after
all of them. -/
theorem xallocSeq_take_heap (s : MemState) (reqs : List Nat) (n : Nat) :
    ∃ extra : List Block,
      (xallocSeq s reqs).2.heap = (xallocSeq s (reqs.take n)).2.heap ++ extra := by
  have h := xallocSeq_append (reqs.take n) (reqs.drop n) s
  rw [List.take_append_drop] at h
  obtain ⟨extra, he, _⟩ := xallocSeq_heap (reqs.drop n) (xallocSeq s (reqs.take n)).2
  exact ⟨extra, by rw [h, he]⟩

/-- Packing, with the regions `pre` handed out before the state `s`: when
`nxtfree` is the total size of the earlier regions of the current block (for
blocks of index at least `L0`), every region handed out from `s` on, in a
block that exists when it is handed out, starts at the total size of the
earlier regions of its block. -/
theorem xallocSeq_packed (reqs : List Nat) :
    ∀ (s : MemState) (pre : List Region) (L0 : Nat),
      2 * s.mblklen < SIZE_MOD → s.nxtfree ≤ s.mblklen →
      (∀ sz ∈ reqs, alignSz sz ≤ s.mblklen) →
      (∀ a ∈ pre, ∀ k, a.ptr.base = some k → s.heap.length ≤ k → a.len = 0) →
      (∀ k, s.mbuf = some k → s.heap.length ≤ k → s.nxtfree = s.mblklen) →
      (∀ k, s.mbuf = some k → L0 ≤ k → k < s.heap.length →
        s.nxtfree = totalLen (pre.filter (fun a => a.ptr.base == some k))) →
      ∀ (j : Nat) (g : Region), (xallocSeq s reqs).1[j]? = some g →
        ∀ k, g.ptr.base = some k → L0 ≤ k →
          k < (xallocSeq s (reqs.take (j + 1))).2.heap.length →
          g.ptr.off =
            totalLen ((pre ++ (xallocSeq s reqs).1.take j).filter
              (fun a => a.ptr.base == some k)) := by
  induction reqs with
  | nil => intro s pre L0 _ _ _ _ _ _ j g hg; simp [xallocSeq] at hg
  | cons sz rest ih =>
    intro s pre L0 h2 hc hr h1 hi2 h3 j g hg k hk hL hlen
    have hrz := hr sz (List.mem_cons_self _ _)
    have hrr : ∀ z ∈ rest, alignSz z ≤ s.mblklen :=
      fun z hz => hr z (List.mem_cons_of_mem _ hz)
    have ht : toSize (s.nxtfree + alignSz sz) = s.nxtfree + alignSz sz :=
      toSize_of_lt (by omega)
    simp only [List.take_succ_cons, xallocSeq] at hg hlen ⊢
    by_cases hf : s.mblklen < toSize (s.nxtfree + alignSz sz)
    · have hx := xalloc_fresh s sz hf
      rw [hx] at hg hlen ⊢
      dsimp only at hg hlen ⊢
      have hzero : ∀ n, s.heap.length ≤ n →
          totalLen (pre.filter (fun a => a.ptr.base == some n)) = 0 :=
        fun n hn => totalLen_filter_zero pre n (fun a ha hb => h1 a ha n hb hn)
      cases j with
      | zero =>
        simp only [List.getElem?_cons_zero, Option.some.injEq] at hg
        subst hg
        have hkk : s.heap.length = k := by simpa using hk
        simp only [List.take_zero, List.append_nil]
        rw [hzero k (by omega)]
      | succ j =>
        simp only [List.getElem?_cons_succ] at hg
        have hi := ih
          { mblklen := s.mblklen, nxtfree := alignSz sz, mbuf := some s.heap.length,
            heap := s.heap ++ [List.replicate s.mblklen 0] }
          (pre ++ [{ ptr := { base := some s.heap.length, off := 0 }, len := alignSz sz }]) L0
          h2 hrz hrr
          (by intro a ha n hn hge
              simp only [List.length_append, List.length_singleton] at hge
              rcases List.mem_append.mp ha with ha | ha
              · exact h1 a ha n hn (by omega)
              · simp only [List.mem_singleton] at ha
                subst ha
                have : s.heap.length = n := by simpa using hn
                omega)
          (by intro n hn hge
              simp only [List.length_append, List.length_singleton] at hge
              have : s.heap.length = n := by simpa using hn
              omega)
          (by intro n hn _ _
              have hnn : s.heap.length = n := by simpa using hn
              subst hnn
              rw [List.filter_append, totalLen_append, hzero _ (Nat.le_refl _)]
              simp [totalLen])
          j g hg k hk hL hlen
        rw [hi, List.append_assoc]
        rfl
    · have hfit : toSize (s.nxtfree + alignSz sz) ≤ s.mblklen := Nat.not_lt.mp hf
      have hx := xalloc_fit s sz hfit
      rw [ht] at hfit hx
      rw [hx] at hg hlen ⊢
      dsimp only at hg hlen ⊢
      cases j with
      | zero =>
        simp only [List.getElem?_cons_zero, Option.some.injEq] at hg
        subst hg
        simp only [List.take_zero, List.append_nil, xallocSeq] at hlen ⊢
        exact h3 k hk hL hlen
      | succ j =>
        simp only [List.getElem?_cons_succ] at hg
        have hi := ih { s with nxtfree := s.nxtfree + alignSz sz }
          (pre ++ [{ ptr := { base := s.mbuf, off := s.nxtfree }, len := alignSz sz }]) L0
          h2 hfit hrr
          (by intro a ha n hn hge
              rcases List.mem_append.mp ha with ha | ha
              · exact h1 a ha n hn hge
              · simp only [List.mem_singleton] at ha
                subst ha
                have := hi2 n hn hge
                show alignSz sz = 0
                omega)
          (by intro n hn hge
              have := hi2 n hn hge
              show s.nxtfree + alignSz sz = s.mblklen
              omega)
          (by intro n hn hLn hlt
              have hn2 : s.mbuf = some n := hn
              rw [List.filter_append, totalLen_append, ← h3 n hn2 hLn hlt]
              simp [totalLen, hn2])
          j g hg k hk hL hlen
        rw [hi, List.append_assoc]
        rfl

/-- C15, as amended: after `initmem`, for every list of requests whose rounded
sizes are at most `mblklen`, in a run of the program (every block of the memory
is one the system allocator can supply): the offset returned by a call served
from a block obtained since `initmem` is the sum of the rounded sizes of all
earlier calls of the list served from the same block; a call that obtains a
block returns offset 0, and it obtains one only when `nxtfree ≤ mblklen` and
`mblklen - nxtfree` is less than its rounded size, so fewer bytes than that are
left unused at the end of the block it abandons. -/
theorem packing (m p : Nat) (s0 : MemState) (reqs : List Nat)
    (hr : ∀ sz ∈ reqs, alignSz sz ≤ (initmem m p s0).mblklen)
    (hx : suppliable (xallocSeq (initmem m p s0) reqs).2.heap) :
    (∀ (j : Nat) (g : Region) (k : Nat),
      (xallocSeq (initmem m p s0) reqs).1[j]? = some g →
      g.ptr.base = some k → s0.heap.length ≤ k →
      k < (xallocSeq (initmem m p s0) (reqs.take (j + 1))).2.heap.length →
      g.ptr.off =
        totalLen (((xallocSeq (initmem m p s0) reqs).1.take j).filter
          (fun a => a.ptr.base == g.ptr.base))) ∧
    (∀ (j sz : Nat), reqs[j]? = some sz →
      (xalloc (xallocSeq (initmem m p s0) (reqs.take j)).2 sz).1.heap ≠
        (xallocSeq (initmem m p s0) (reqs.take j)).2.heap →
      (xalloc (xallocSeq (initmem m p s0) (reqs.take j)).2 sz).2.off = 0 ∧
      (xallocSeq (initmem m p s0) (reqs.take j)).2.nxtfree ≤ (initmem m p s0).mblklen ∧
      (initmem m p s0).mblklen - (xallocSeq (initmem m p s0) (reqs.take j)).2.nxtfree <
        alignSz sz) := by
  constructor
  · intro j g k hg hk hL hlen
    -- the block `k` was obtained since `initmem`: it has `mblklen` bytes
    have h2 : 2 * (initmem m p s0).mblklen < SIZE_MOD := by
      obtain ⟨extra, he, _, h3, _, _⟩ :=
        xallocSeq_heap (reqs.take (j + 1)) (initmem m p s0)
      obtain ⟨rest, hrest⟩ := xallocSeq_take_heap (initmem m p s0) reqs (j + 1)
      have hh : (initmem m p s0).heap = s0.heap := rfl
      rw [he, hh, List.length_append] at hlen
      have hidx : k - s0.heap.length < extra.length := by omega
      have hmem : extra[k - s0.heap.length] ∈ (xallocSeq (initmem m p s0) reqs).2.heap := by
        rw [hrest, he]
        exact List.mem_append_left _ (List.mem_append_right _ (List.getElem_mem _))
      have hS := hx _ hmem
      rw [h3 _ (List.getElem_mem _), List.length_replicate] at hS
      have hB : BLOCK_MAX = 9223372036854775808 := rfl
      have hM : SIZE_MOD = 18446744073709551616 := rfl
      omega
    have h := xallocSeq_packed reqs (initmem m p s0) [] s0.heap.length h2 (Nat.le_refl _) hr
      (fun a ha => absurd ha (List.not_mem_nil a))
      (fun _ _ _ => rfl)
      (fun n _ hLn hlt => absurd hlt (Nat.not_lt.mpr hLn)) j g hg k hk hL hlen
    rw [List.nil_append] at h
    rw [h, hk]
  · intro j sz hj hne
    have hmem : sz ∈ reqs := by
      obtain ⟨hlt, rfl⟩ := List.getElem?_eq_some.mp hj
      exact List.getElem_mem _
    have hrz := hr sz hmem
    have hc := xallocSeq_nxtfree_le (reqs.take j) (initmem m p s0) (Nat.le_refl _)
      (fun z hz => hr z (List.mem_of_mem_take hz))
    obtain ⟨_, _, hm, _, _, _⟩ := xallocSeq_heap (reqs.take j) (initmem m p s0)
    have hS : (initmem m p s0).mblklen < SIZE_MOD := toSize_lt _
    generalize (xallocSeq (initmem m p s0) (reqs.take j)).2 = sj at hne hc hm ⊢
    generalize (initmem m p s0).mblklen = S at hrz hc hm hS ⊢
    by_cases hf : sj.mblklen < toSize (sj.nxtfree + alignSz sz)
    · rw [xalloc_fresh sj sz hf]
      refine ⟨rfl, hc, ?_⟩
      rw [hm] at hf
      unfold toSize at hf
      have hM : SIZE_MOD = 18446744073709551616 := rfl
      rw [hM] at hf hS
      omega
    · exact absurd (xalloc_fit_heap sj sz (Nat.not_lt.mp hf)) hne

/-- Witness of `packing`: blocks of 4096 bytes, requests of 10, 20 and 4090
bytes; the second call returns offset 16 of block 0, the size of the first
region. -/
theorem packing_witness :
    ((∀ sz ∈ [10, 20, 4090], alignSz sz ≤ (initmem 1 4096 mem0).mblklen) ∧
      suppliable (xallocSeq (initmem 1 4096 mem0) [10, 20, 4090]).2.heap) ∧
    (16 : Nat) = totalLen (((xallocSeq (initmem 1 4096 mem0) [10, 20, 4090]).1.take 1).filter
      (fun a => a.ptr.base == some 0)) :=
  have hh : (xallocSeq (initmem 1 4096 mem0) [10, 20, 4090]).2.heap =
      [List.replicate 4096 0, List.replicate 4096 0] := by
    simp only [xallocSeq]
    rw [xalloc_fresh (initmem 1 4096 mem0) 10 (by decide)]
    rw [xalloc_fit _ 20 (by decide)]
    rw [xalloc_fresh _ 4090 (by decide)]
    rfl
  have hx : suppliable (xallocSeq (initmem 1 4096 mem0) [10, 20, 4090]).2.heap := by
    rw [hh]
    intro b hb
    simp only [List.mem_cons, List.mem_singleton, List.not_mem_nil, or_false, or_self] at hb
    rw [hb, List.length_replicate]
    decide
  ⟨⟨by decide, hx⟩,
   (packing 1 4096 mem0 [10, 20, 4090] (by decide) hx).1 1
     { ptr := { base := some 0, off := 16 }, len := 24 } 0 (by decide) rfl (by decide)
     (by decide)⟩

/-- C15, counterexample: blocks of 4096 bytes: the first call after `initmem`,
`xalloc(0)`, obtains no block and returns offset 4096 (of the null `mbuf`),
although no call precedes it: the sum of the rounded sizes of the earlier
calls is 0. -/
theorem packing_fails :
    (∀ sz ∈ [0], alignSz sz ≤ pageInit.mblklen) ∧
    (xallocSeq pageInit [0]).1 = [{ ptr := { base := none, off := 4096 }, len := 0 }] ∧
    (xallocSeq pageInit [0]).2.heap = [] ∧
    ¬ (∀ (j : Nat) (g : Region), (xallocSeq pageInit [0]).1[j]? = some g →
      g.ptr.off = totalLen (((xallocSeq pageInit [0]).1.take j).filter
        (fun a => a.ptr.base == g.ptr.base))) := by
  refine ⟨by decide, by decide, by decide, ?_⟩
  intro h
  have := h 0 { ptr := { base := none, off := 4096 }, len := 0 } (by decide)
  exact absurd this (by decide)

end Mem2

namespace Ofbus

/-! ## The two loops of `ofbus_attach` -/

theorem attachDisplays_eq (size units : Nat) (cs : List OfNode) :
    attachDisplays size units cs = (cs.filter isDisplay).flatMap (attachUnits size units) := by
  induction cs with
  | nil => rfl
  | cons c rest ih =>
    cases hd : c.device_type with
    | none =>
      have hn : isDisplay c = false := by simp [isDisplay, hd]
      simp only [attachDisplays, hd, List.filter_cons, hn]
      simpa using ih
    | some t =>
      by_cases ht : t = "display".toList
      · have hn : isDisplay c = true := by simp [isDisplay, hd, ht]
        simp only [attachDisplays, hd, List.filter_cons, hn, if_true, List.flatMap_cons]
        rw [← ih]
        simp [ht]
      · have hn : isDisplay c = false := by
          simp only [isDisplay, hd]
          exact beq_false_of_ne (fun h => ht (Option.some.inj h))
        have hne : t ≠ "display".toList := ht
        simp only [attachDisplays, hd, List.filter_cons, hn]
        rw [if_pos hne]
        simpa using ih

theorem attachRest_eq (arm32 : Bool) (size units : Nat) (rootbus : Bool) (cs : List OfNode) :
    attachRest arm32 size units rootbus cs =
      (cs.filter (fun c => !isDisplay c && !(rootbus && ofbus_skip_node_in_root arm32 c))).flatMap
        (attachUnits size units) := by
  induction cs with
  | nil => rfl
  | cons c rest ih =>
    have hm : (match c.device_type with
        | none => false
        | some type => type == "display".toList) = isDisplay c := by
      cases hd : c.device_type with
      | none => simp [isDisplay, hd]
      | some t => simp [isDisplay, hd]
    simp only [attachRest, hm, List.filter_cons]
    cases h1 : isDisplay c with
    | true => simpa using ih
    | false =>
      cases h2 : (rootbus && ofbus_skip_node_in_root arm32 c) with
      | true => simpa using ih
      | false => simp [List.flatMap_cons, ih]

theorem skip_iff (arm32 : Bool) (c : OfNode) :
    ofbus_skip_node_in_root arm32 c = true ↔
      ∃ n, c.name = some n ∧
        (n ∈ skip_names_common ∨ (arm32 = true ∧ n ∈ OFBUS_ROOT_MACHDEP_SKIPNAMES)) := by
  unfold ofbus_skip_node_in_root
  cases hn : c.name with
  | none => simp
  | some n =>
    simp only [List.any_eq_true, beq_iff_eq, Option.some.injEq, exists_eq_left']
    cases arm32 with
    | false => simp [skip_names]
    | true => simp [skip_names]

/-- C16, as amended: the calls of `config_found` made by `ofbus_attach` are,
first, those for every child whose `device_type` is present and equal to
"display", in sibling order, then those for every other child in sibling
order, except that when the bus is the firmware root a child that is no
display and whose name is one of aliases, options, openprom, chosen, packages
(or, when built for `__arm32__`, udp, cpus, mmu, memory) is skipped; each
attached child is attached with the units 0 .. units-1 in this order; no child
is attached in both passes, and a display is never skipped. -/
theorem attach_order (arm32 : Bool) (size root : Nat) (bus : OfBus) :
    ofbus_attach arm32 size root bus =
      (bus.children.filter isDisplay).flatMap (attachUnits size (busUnits bus)) ++
      (bus.children.filter (fun c =>
        !isDisplay c && !(bus.phandle == root && ofbus_skip_node_in_root arm32 c))).flatMap
        (attachUnits size (busUnits bus)) ∧
    (∀ c : OfNode, ofbus_skip_node_in_root arm32 c = true ↔
      ∃ n, c.name = some n ∧
        (n ∈ skip_names_common ∨ (arm32 = true ∧ n ∈ OFBUS_ROOT_MACHDEP_SKIPNAMES))) ∧
    (∀ (c : OfNode) (units : Nat),
      (attachUnits size units c).map (fun a => (a.oba_phandle, a.oba_unit)) =
        (List.range units).map (fun u => (c.phandle, u))) ∧
    (∀ c : OfNode, ¬ (isDisplay c = true ∧
      (!isDisplay c && !(bus.phandle == root && ofbus_skip_node_in_root arm32 c)) = true)) ∧
    (∀ c ∈ bus.children, isDisplay c = true → c ∈ bus.children.filter isDisplay) := by
  refine ⟨?_, skip_iff arm32, ?_, ?_, ?_⟩
  · simp only [ofbus_attach]
    rw [attachDisplays_eq, attachRest_eq]
  · intro c units
    simp [attachUnits, Function.comp_def]
  · intro c hc
    obtain ⟨h1, h2⟩ := hc
    simp [h1] at h2
  · intro c hc hd
    exact List.mem_filter.mpr ⟨hc, hd⟩

/-- C16, counterexample: built for `__arm32__`, on the root bus with the
children disk, vga (a display named chosen), cpus and options, `ofbus_attach`
attaches vga and disk only: the child cpus, which is no display and whose name
is none of aliases, options, openprom, chosen, packages, is skipped.  Built
for another machine it is attached. -/
theorem attach_order_arm32 :
    (ofbus_attach true 64 1 (sampleBus 1 none)).map (fun a => (a.oba_phandle, a.oba_unit)) =
      [(12, 0), (11, 0)] ∧
    (ofbus_attach false 64 1 (sampleBus 1 none)).map (fun a => (a.oba_phandle, a.oba_unit)) =
      [(12, 0), (11, 0), (13, 0)] ∧
    (sampleBus 1 none).children[2]? =
      some { phandle := 13, device_type := none, name := some "cpus".toList,
             pkgname := "cpus".toList } ∧
    "cpus".toList ∉ skip_names_common := by
  decide

/-! ## Units and names -/

theorem busUnits_le (bus : OfBus) : busUnits bus ≤ 7 := by
  unfold busUnits
  cases bus.name with
  | none => decide
  | some n => dsimp only; split_ifs <;> decide

theorem toDigits_length (u : Nat) (hu : u < 10) : (Nat.toDigits 10 u).length = 1 := by
  interval_cases u <;> decide

/-- C17, as amended: the number of units attached per child is 7 when the name
of the bus node is "scsi", 2 when it is "ide" and 1 otherwise, also when the
name cannot be read; the name passed for unit `u` of a child with package name
`n` is, when `units > 1`, `n` followed by "@" and the decimal `u`, and when
`units = 1` it is `n` without suffix, provided the name is shorter than
`sizeof(oba_ofname)` (it is cut to `sizeof(oba_ofname) - 1` characters). -/
theorem unit_names (size : Nat) (bus : OfBus) (child : OfNode) (u : Nat) :
    (bus.name = some "scsi".toList → busUnits bus = 7) ∧
    (bus.name = some "ide".toList → busUnits bus = 2) ∧
    (bus.name ≠ some "scsi".toList → bus.name ≠ some "ide".toList → busUnits bus = 1) ∧
    (attachUnits size (busUnits bus) child).length = busUnits bus ∧
    (u < busUnits bus →
      (attachUnits size (busUnits bus) child)[u]? =
        some { oba_busname := "ofw".toList,
               oba_ofname := ofname size (busUnits bus) child.pkgname u,
               oba_unit := u, oba_phandle := child.phandle }) ∧
    (1 < busUnits bus → u < busUnits bus → child.pkgname.length + 2 < size →
      ofname size (busUnits bus) child.pkgname u = child.pkgname ++ ['@'] ++ Nat.toDigits 10 u) ∧
    (busUnits bus = 1 → child.pkgname.length < size →
      ofname size (busUnits bus) child.pkgname u = child.pkgname) ∧
    ofname size (busUnits bus) child.pkgname u =
      (if 1 < busUnits bus then child.pkgname ++ ['@'] ++ Nat.toDigits 10 u
        else child.pkgname).take (size - 1) := by
  refine ⟨?_, ?_, ?_, ?_, ?_, ?_, ?_, ?_⟩
  · intro h; simp only [busUnits, h]; rfl
  · intro h; simp only [busUnits, h]; rfl
  · intro h1 h2
    unfold busUnits
    cases hn : bus.name with
    | none => rfl
    | some n =>
      have hs : n ≠ "scsi".toList := fun h => h1 (by rw [hn, h])
      have hi : n ≠ "ide".toList := fun h => h2 (by rw [hn, h])
      dsimp only
      rw [if_neg hs, if_neg hi]
  · simp [attachUnits]
  · intro hu
    simp only [attachUnits, List.getElem?_map, List.getElem?_range hu, Option.map_some']
  · intro h1 hu hlen
    have hd := toDigits_length u (by have := busUnits_le bus; omega)
    simp only [ofname, gt_iff_lt, h1, if_true, snprintf_at]
    apply List.take_of_length_le
    simp only [List.length_append, List.length_singleton, hd]
    omega
  · intro h1 hlen
    simp only [ofname, h1, gt_iff_lt, Nat.lt_irrefl, if_false, strlcpy]
    apply List.take_of_length_le
    omega
  · by_cases h1 : 1 < busUnits bus
    · simp only [ofname, gt_iff_lt, h1, if_true, snprintf_at]
    · simp only [ofname, gt_iff_lt, h1, if_false, strlcpy]

/-- Witness of `unit_names`: on a bus named scsi, with `oba_ofname` of 64 bytes,
unit 3 of the child with package name "disk@0" is passed the name "disk@0@3". -/
theorem unit_names_witness :
    (1 < busUnits (sampleBus 5 (some "scsi".toList)) ∧
      3 < busUnits (sampleBus 5 (some "scsi".toList)) ∧ "disk@0".toList.length + 2 < 64) ∧
    ofname 64 (busUnits (sampleBus 5 (some "scsi".toList))) "disk@0".toList 3 =
      "disk@0@3".toList :=
  ⟨by decide,
   ((unit_names 64 (sampleBus 5 (some "scsi".toList))
      { phandle := 11, device_type := none, name := none, pkgname := "disk@0".toList } 3).2.2.2.2.2.1
      (by decide) (by decide) (by decide)).trans (by decide)⟩

/-- C17, counterexample: with `oba_ofname` of 64 bytes, on a bus named scsi, a
child whose package name `n` has 62 characters (it fits the 64 bytes of `name`)
is passed, for unit 3, the name `n` followed by "@" alone: the decimal 3 is cut
off. -/
theorem unit_names_cut :
    busUnits { phandle := 5, name := some "scsi".toList, children := [] } = 7 ∧
    (List.replicate 62 'a').length = 62 ∧
    ofname 64 7 (List.replicate 62 'a') 3 = List.replicate 62 'a' ++ ['@'] ∧
    ofname 64 7 (List.replicate 62 'a') 3 ≠ List.replicate 62 'a' ++ ['@'] ++ Nat.toDigits 10 3 ∧
    ((ofbus_attach false 64 0
        { phandle := 5, name := some "scsi".toList,
          children := [{ phandle := 9, device_type := none, name := none,
                         pkgname := List.replicate 62 'a' }] })[3]?).map
      (fun a => a.oba_ofname) = some (List.replicate 62 'a' ++ ['@']) := by
  decide

end Ofbus
